import Mathlib

/-!
Verification of the threat-geometry engine of the traveling-uav repository
(`src/geometry/circle.py`) against its natural-language specification.

The code of `geometry/circle.py` is embedded faithfully over the reals.
Helper modules that are not under `src/` (`geometry.coord`, `geometry.segment`,
`geometry.path`, `geometry.geometric`, and the shapely polygon operations) are
modelled from the spec; each such definition carries a doc comment starting
with `Modelled from the spec:`.
-/

open Real MeasureTheory Set

namespace Uav

/-- A 2D coordinate (`geometry.coord.Coord`), modelled as a pair of reals. -/
abbrev Coord := ℝ × ℝ

/-- Modelled from the spec: Euclidean distance between two points
(`Coord.distance_to` from `geometry.coord`, not under `src/`;
spec §3: "Euclidean distance to another point"). -/
noncomputable def distance_to (p q : Coord) : ℝ :=
  Real.sqrt ((p.1 - q.1) ^ 2 + (p.2 - q.2) ^ 2)

/-- Modelled from the spec: polar translation (`Coord.shifted` from `geometry.coord`,
not under `src/`; spec §3: "produce a new point shifted by a signed distance along a
given angle"). -/
noncomputable def shifted (p : Coord) (d θ : ℝ) : Coord :=
  (p.1 + d * Real.cos θ, p.2 + d * Real.sin θ)

/-- Modelled from the spec: `Segment.angle = atan2(b.y - a.y, b.x - a.x)`
(spec §3), embedded through `Complex.arg`, which agrees with `atan2` on all
inputs including the origin. -/
noncomputable def segment_angle (a b : Coord) : ℝ :=
  Complex.arg ⟨b.1 - a.1, b.2 - a.2⟩

/-- Modelled from the spec: two-endpoint segment (`geometry.segment.Segment`,
not under `src/`). -/
structure Segment where
  p1 : Coord
  p2 : Coord

/-- Modelled from the spec: `Segment.length = dist(a, b)`. -/
noncomputable def Segment.length (s : Segment) : ℝ := distance_to s.p1 s.p2

/-- Modelled from the spec: `Segment.angle`, the directional angle of the segment. -/
noncomputable def Segment.angle (s : Segment) : ℝ := segment_angle s.p1 s.p2

/-- Threat circle (`geometry.circle.Circle`): center and radius. -/
structure Circle where
  center : Coord
  radius : ℝ

/-- Source constant `Circle.BUFFER_RESOLUTION = 40`. -/
def BUFFER_RESOLUTION : ℕ := 40

/-- Source constant `Circle.ANGLE_STEP = π / BUFFER_RESOLUTION`. -/
noncomputable def ANGLE_STEP : ℝ := Real.pi / BUFFER_RESOLUTION

/-- Source constant `Circle.EPSILON = 1`. -/
def EPSILON : ℝ := 1

/-- Source constant `INF = 1000` from `geometry/circle.py`. -/
def INF : ℝ := 1000

/-- Source `Circle.contains`: `coord.distance_to(self.center) <= self.radius`. -/
def Circle.contains (c : Circle) (coord : Coord) : Prop :=
  distance_to coord c.center ≤ c.radius

/-- Modelled from the spec: `innerRegion`, the closed disk of radius `radius`
(spec §3: "the exact disk of radius `radius` (closed boundary)"; the code holds a
shapely polygon approximation of it). -/
def Circle.inner_region (c : Circle) : Set Coord :=
  {p | distance_to p c.center ≤ c.radius}

/-- Modelled from the spec: `outerRegion`, the closed disk of radius `radius + EPSILON`
(spec §3: "disk of radius `radius + ε` (ε = 1 distance unit)"). -/
def Circle.outer_region (c : Circle) : Set Coord :=
  {p | distance_to p c.center ≤ c.radius + EPSILON}

/-- Modelled from the spec: a ring of points sampled on the circle of radius `ρ`
about `center` (the code reads a shapely buffer polygon's exterior coordinates,
built with `BUFFER_RESOLUTION = 40` segments per quarter turn; the ring closes on
its first point). -/
noncomputable def ring_points (center : Coord) (ρ : ℝ) : List Coord :=
  (List.range (4 * BUFFER_RESOLUTION + 1)).map
    (fun k : ℕ => shifted center ρ (2 * Real.pi * (k : ℝ) / (4 * (BUFFER_RESOLUTION : ℝ))))

/-- Source `Circle.boundary`: the cached list of points on the outer region's
perimeter (spec §3: "ordered list of points sampled on `outerRegion`'s perimeter"). -/
noncomputable def Circle.boundary (c : Circle) : List Coord :=
  ring_points c.center (c.radius + EPSILON)

/-- Modelled from the spec: the inner polygon's boundary coordinates
(`circle.to_shapely.boundary.coords`, read by `calculate_partition_between_circles`). -/
noncomputable def Circle.inner_boundary (c : Circle) : List Coord :=
  ring_points c.center c.radius

/-- Modelled from the spec: the at most two points on the circle about `center` of
radius `radius` whose distance from `start` equals `chord`
(`calculate_points_in_distance_on_circle` from `geometry.geometric`, not under
`src/`; spec §4.2: "the (at most two) points on the circle centered at `center`
with radius `radius`, whose distance from `start` equals `chord`"), via the
standard two-circles intersection formula. -/
noncomputable def calculate_points_in_distance_on_circle
    (center : Coord) (radius : ℝ) (start : Coord) (chord : ℝ) : List Coord :=
  let d := distance_to start center
  let ux := (center.1 - start.1) / d
  let uy := (center.2 - start.2) / d
  let a := (chord ^ 2 + d ^ 2 - radius ^ 2) / (2 * d)
  let b := Real.sqrt (chord ^ 2 - a ^ 2)
  let pts : List Coord := [(start.1 + a * ux - b * uy, start.2 + a * uy + b * ux),
    (start.1 + a * ux + b * uy, start.2 + a * uy - b * ux)]
  pts

open Classical in
/-- Python's `min(xs, key = f)` on a point list: the first element whose key is
minimal (the default value for the empty list is never used by the code). -/
noncomputable def min_by_key (f : Coord → ℝ) : List Coord → Coord
  | [] => ((0 : ℝ), (0 : ℝ))
  | x :: xs => xs.foldl (fun acc y => if f y < f acc then y else acc) x

open Classical in
/-- Source `Circle.calculate_exit_point`: for `chord ≥ 2·radius` shift `start` by the
diameter toward the center, otherwise take the candidate point at distance `chord`
from `start` on the circle that is closest to `target`. -/
noncomputable def Circle.calculate_exit_point
    (c : Circle) (start : Coord) (chord : ℝ) (target : Coord) : Coord :=
  if c.radius * 2 ≤ chord then
    shifted start (2 * c.radius) (Segment.mk start c.center).angle
  else
    min_by_key (fun p => distance_to p target)
      (calculate_points_in_distance_on_circle c.center c.radius start chord)

open Classical in
/-- Modelled from the spec: the directional angle of the line from `start` to `finish`
(`calculate_directional_angle_of_line` from `geometry.geometric`, not under `src/`;
spec §4.2 calls it the "angular position as seen from `center`"), normalized to
`[0, 2π)` — the wraparound sampling `small_angle + 2π` in `get_boundary_between`
presumes this range. -/
noncomputable def calculate_directional_angle_of_line (start finish : Coord) : ℝ :=
  let θ := segment_angle start finish
  if θ < 0 then θ + 2 * Real.pi else θ

/-- Source `Circle.arc_length_between`: `|angle1 - angle2| * radius`. -/
noncomputable def Circle.arc_length_between (c : Circle) (start finish : Coord) : ℝ :=
  |calculate_directional_angle_of_line c.center start -
    calculate_directional_angle_of_line c.center finish| * c.radius

/-- Positivity of the sampling step `π / 40`. -/
lemma angle_step_pos : 0 < ANGLE_STEP := by
  unfold ANGLE_STEP BUFFER_RESOLUTION
  positivity

/-- Stepping by `s` strictly decreases the number of remaining loop iterations. -/
lemma ceil_sub_step_lt (s x y : ℝ) (hs : 0 < s) (h : x < y) :
    Nat.ceil ((y - (x + s)) / s) < Nat.ceil ((y - x) / s) := by
  have hz : 0 < (y - x) / s := div_pos (by linarith) hs
  have h1 : 1 ≤ Nat.ceil ((y - x) / s) := Nat.ceil_pos.mpr hz
  have h2 : Nat.ceil ((y - (x + s)) / s) ≤ Nat.ceil ((y - x) / s) - 1 := by
    rw [Nat.ceil_le, Nat.cast_sub h1, Nat.cast_one]
    have hrw : (y - (x + s)) / s = (y - x) / s - 1 := by
      field_simp
      ring
    rw [hrw]
    have := Nat.le_ceil ((y - x) / s)
    linarith
  omega

open Classical in
/-- Source sampling loop of `Circle.get_boundary_between`: append the point at `angle`,
then step by `ANGLE_STEP`, while `angle < hi`. -/
noncomputable def boundary_loop (c : Circle) (angle hi : ℝ) : List Coord :=
  if h : angle < hi then
    shifted c.center (c.radius + EPSILON) angle :: boundary_loop c (angle + ANGLE_STEP) hi
  else []
  termination_by Nat.ceil ((hi - angle) / ANGLE_STEP)
  decreasing_by exact ceil_sub_step_lt ANGLE_STEP angle hi angle_step_pos h

/-- Closed form of the sampling loop: it emits exactly
`⌈(hi - angle) / ANGLE_STEP⌉` points at angles `angle, angle + step, …`. -/
lemma boundary_loop_closed_form (c : Circle) : ∀ (n : ℕ) (angle hi : ℝ),
    Nat.ceil ((hi - angle) / ANGLE_STEP) = n →
    boundary_loop c angle hi = (List.range n).map
      (fun i : ℕ => shifted c.center (c.radius + EPSILON) (angle + (i : ℝ) * ANGLE_STEP)) := by
  intro n
  induction n with
  | zero =>
    intro angle hi h
    have hle : (hi - angle) / ANGLE_STEP ≤ 0 := by
      by_contra hlt
      push_neg at hlt
      exact absurd h (by positivity)
    have hnl : ¬ angle < hi := by
      intro hc
      have : 0 < (hi - angle) / ANGLE_STEP := div_pos (by linarith) angle_step_pos
      linarith
    rw [boundary_loop, dif_neg hnl]
    rfl
  | succ n ih =>
    intro angle hi h
    have hz : (0 : ℝ) < (hi - angle) / ANGLE_STEP := by
      have : 0 < Nat.ceil ((hi - angle) / ANGLE_STEP) := by omega
      exact Nat.ceil_pos.mp this
    have hlt : angle < hi := by
      have h2 := mul_pos hz angle_step_pos
      rw [div_mul_cancel₀ _ (ne_of_gt angle_step_pos)] at h2
      linarith
    have hnext : Nat.ceil ((hi - (angle + ANGLE_STEP)) / ANGLE_STEP) = n := by
      have hrw : (hi - (angle + ANGLE_STEP)) / ANGLE_STEP = (hi - angle) / ANGLE_STEP - 1 := by
        have hs0 : ANGLE_STEP ≠ 0 := ne_of_gt angle_step_pos
        field_simp
        ring
      have hub : (hi - angle) / ANGLE_STEP ≤ (n : ℝ) + 1 := by
        have := Nat.ceil_le.mp (le_of_eq h)
        push_cast at this
        linarith
      rcases Nat.eq_zero_or_pos n with hn0 | hnpos
      · subst hn0
        rw [hrw]
        exact Nat.ceil_eq_zero.mpr (by linarith)
      · have hlb : (n : ℝ) < (hi - angle) / ANGLE_STEP := by
          by_contra hc
          push_neg at hc
          have : Nat.ceil ((hi - angle) / ANGLE_STEP) ≤ n := Nat.ceil_le.mpr (by exact_mod_cast hc)
          omega
        rw [hrw]
        rw [Nat.ceil_eq_iff (by omega)]
        constructor
        · push_cast [Nat.cast_sub hnpos]
          linarith
        · linarith
    rw [boundary_loop, dif_pos hlt, ih (angle + ANGLE_STEP) hi hnext]
    rw [List.range_succ_eq_map, List.map_cons, List.map_map]
    congr 1
    · norm_num
    · apply List.map_congr_left
      intro i _
      simp only [Function.comp_apply]
      congr 1
      push_cast
      ring

open Classical in
/-- Source `Circle.get_boundary_between`, before the final orientation step:
sample the shorter arc between the two angular positions. -/
noncomputable def boundary_samples (c : Circle) (start finish : Coord) : List Coord :=
  let angle1 := calculate_directional_angle_of_line c.center start
  let angle2 := calculate_directional_angle_of_line c.center finish
  let small_angle := min angle1 angle2
  let great_angle := max angle1 angle2
  if great_angle - small_angle ≤ Real.pi then
    boundary_loop c small_angle great_angle ++
      [shifted c.center (c.radius + EPSILON) great_angle]
  else
    boundary_loop c great_angle (small_angle + 2 * Real.pi) ++
      [shifted c.center (c.radius + EPSILON) small_angle]

open Classical in
/-- Source `Circle.get_boundary_between`: the sampled arc, reversed unless its first
point is strictly nearer to `start` than to `finish`
(`boundary[::-1] if not boundary[0].distance_to(start) < boundary[0].distance_to(end)
else boundary`). -/
noncomputable def Circle.get_boundary_between (c : Circle) (start finish : Coord) : List Coord :=
  let boundary := boundary_samples c start finish
  if ¬ (distance_to boundary.headI start < distance_to boundary.headI finish) then
    boundary.reverse
  else boundary

/-- Linear interpolation along the segment from `A` to `B`. -/
def lerp (t : ℝ) (A B : Coord) : Coord :=
  (A.1 + t * (B.1 - A.1), A.2 + t * (B.2 - A.2))

/-- Modelled from the spec: the length of the intersection of segment `AB` with the
inner disk (spec §4.2 `pathIntersectionLength`; the code computes it as
`inner_polygon.intersection(segment.to_shapely).length` with shapely): the Lebesgue
measure of the parameter set mapping into the disk, scaled by the segment length. -/
noncomputable def Circle.segment_intersection_length (c : Circle) (A B : Coord) : ℝ :=
  (volume {t : ℝ | t ∈ Icc (0 : ℝ) 1 ∧ distance_to (lerp t A B) c.center ≤ c.radius}).toReal
    * distance_to A B

/-- Modelled from the spec: consecutive pairs of a path's points
(spec §3: `segments[i] = Segment(points[i], points[i+1])`). -/
def path_pairs (pts : List Coord) : List (Coord × Coord) := pts.zip pts.tail

/-- Modelled from the spec: `Path.length`, the sum of the segment lengths. -/
noncomputable def compute_path_length (pts : List Coord) : ℝ :=
  ((path_pairs pts).map (fun ab => distance_to ab.1 ab.2)).sum

/-- Source `Circle.path_intersection_length`: summed intersection lengths of the
path's segments with the inner region. -/
noncomputable def Circle.path_intersection_length (c : Circle) (pts : List Coord) : ℝ :=
  ((path_pairs pts).map (fun ab => c.segment_intersection_length ab.1 ab.2)).sum

/-- Modelled from the spec: the budget-search path
`[source, exitPoint(source, c, target), exitPoint(target, c, source), target]`
(spec §4.3; the planner module `algorithms.single_threat` is not under `src/`). -/
noncomputable def budget_path (c : Circle) (source target : Coord) (chord : ℝ) : List Coord :=
  [source, c.calculate_exit_point source chord target,
    c.calculate_exit_point target chord source, target]

/-- Source `calculate_partition_between_circles`: the pivot on the segment joining the
centers, at distance `(radius1 + (centersDistance - radius2)) / 2` from `center1`. -/
noncomputable def partition_pivot (c1 c2 : Circle) : Coord :=
  shifted c1.center
    ((c1.radius + ((Segment.mk c1.center c2.center).length - c2.radius)) / 2)
    (Segment.mk c1.center c2.center).angle

/-- Source: first endpoint of the auxiliary perpendicular segment,
`point_between.shifted(INF, centers_angle + 0.5 * π)`. -/
noncomputable def partition_inf_a (c1 c2 : Circle) : Coord :=
  shifted (partition_pivot c1 c2) INF ((Segment.mk c1.center c2.center).angle + 0.5 * Real.pi)

/-- Source: second endpoint of the auxiliary perpendicular segment,
`point_between.shifted(INF, centers_angle - 0.5 * π)`. -/
noncomputable def partition_inf_b (c1 c2 : Circle) : Coord :=
  shifted (partition_pivot c1 c2) INF ((Segment.mk c1.center c2.center).angle - 0.5 * Real.pi)

/-- Source: the generating points of the truncating hull — `source`, `target`, and every
circle's inner-polygon boundary coordinates. -/
def partition_hull_points (source target : Coord) (all_circles : List Circle) : Set Coord :=
  {p | p = source ∨ p = target ∨ ∃ c, c ∈ all_circles ∧ p ∈ c.inner_boundary}

/-- Source: the convex hull truncating the auxiliary segment
(`Polygon(all_shapely_points).convex_hull`). -/
def partition_hull (source target : Coord) (all_circles : List Circle) : Set Coord :=
  convexHull ℝ (partition_hull_points source target all_circles)

/-- Parameters along the auxiliary segment at which it lies in the hull. -/
def partition_params (c1 c2 : Circle) (source target : Coord)
    (all_circles : List Circle) : Set ℝ :=
  {t | t ∈ Icc (0 : ℝ) 1 ∧
    lerp t (partition_inf_a c1 c2) (partition_inf_b c1 c2)
      ∈ partition_hull source target all_circles}

open Classical in
/-- Source `calculate_partition_between_circles`: truncate the auxiliary perpendicular
segment to the convex hull. Modelled from the spec: the shapely intersection of the
hull with the segment is the parameter interval between the extreme parameters, and
its `.coords` are the two interval endpoints; when the intersection has no two
distinct points the code's `intersection_points[0], [1]` lookup fails, modelled as
`none`. -/
noncomputable def calculate_partition_between_circles
    (c1 c2 : Circle) (source target : Coord) (all_circles : List Circle) : Option Segment :=
  let A := partition_inf_a c1 c2
  let B := partition_inf_b c1 c2
  let T := partition_params c1 c2 source target all_circles
  if sInf T < sSup T then
    some (Segment.mk (lerp (sInf T) A B) (lerp (sSup T) A B))
  else none

/-! ### Basic geometric helper lemmas -/

/-- Shifting a point by distance `d` lands at distance `|d|` from it. -/
lemma distance_shifted (p : Coord) (d θ : ℝ) :
    distance_to (shifted p d θ) p = |d| := by
  unfold distance_to shifted
  have h : (p.1 + d * Real.cos θ - p.1) ^ 2 + (p.2 + d * Real.sin θ - p.2) ^ 2
      = d ^ 2 * (Real.cos θ ^ 2 + Real.sin θ ^ 2) := by
    ring
  rw [h, Real.cos_sq_add_sin_sq, mul_one, Real.sqrt_sq_eq_abs]

/-- Symmetry of the distance function. -/
lemma distance_to_comm (p q : Coord) : distance_to p q = distance_to q p := by
  unfold distance_to
  congr 1
  ring

/-- Distance from a point to itself is zero. -/
lemma distance_to_self (p : Coord) : distance_to p p = 0 := by
  unfold distance_to
  simp

/-- Nonnegativity of the distance function. -/
lemma distance_to_nonneg (p q : Coord) : 0 ≤ distance_to p q := Real.sqrt_nonneg _

/-- Square root of 4 is 2. -/
lemma sqrt_four : Real.sqrt 4 = 2 := by
  rw [show (4 : ℝ) = 2 ^ 2 by norm_num]
  exact Real.sqrt_sq (by norm_num)

/-! ### Claim theorems: C9, C6, C10, C5 -/

/-- C9: `contains(p)` holds exactly when the Euclidean distance from `p` to the center
is at most the radius; in particular points exactly on the boundary are contained. -/
theorem C9_contains_iff (c : Circle) (p : Coord) :
    (c.contains p ↔ distance_to p c.center ≤ c.radius) ∧
    (distance_to p c.center = c.radius → c.contains p) :=
  ⟨Iff.rfl, fun h => le_of_eq h⟩

/-- Witness for C9 at the circle about the origin with radius 2 and the boundary
point `(2, 0)`. -/
theorem C9_contains_iff_witness :
    distance_to ((2 : ℝ), (0 : ℝ)) (Circle.mk ((0 : ℝ), (0 : ℝ)) 2).center
      = (Circle.mk ((0 : ℝ), (0 : ℝ)) 2).radius ∧
    (Circle.mk ((0 : ℝ), (0 : ℝ)) 2).contains ((2 : ℝ), (0 : ℝ)) := by
  have hd : distance_to ((2 : ℝ), (0 : ℝ)) (Circle.mk ((0 : ℝ), (0 : ℝ)) 2).center
      = (Circle.mk ((0 : ℝ), (0 : ℝ)) 2).radius := by
    show Real.sqrt (((2 : ℝ) - 0) ^ 2 + ((0 : ℝ) - 0) ^ 2) = 2
    rw [show ((2 : ℝ) - 0) ^ 2 + ((0 : ℝ) - 0) ^ 2 = 4 by norm_num]
    exact sqrt_four
  exact ⟨hd, (C9_contains_iff (Circle.mk ((0 : ℝ), (0 : ℝ)) 2) ((2 : ℝ), (0 : ℝ))).2 hd⟩

/-- C6: for a circle of positive radius the inner disk is contained in the outer disk,
and every cached boundary point lies at distance exactly `radius + EPSILON` from the
center; the embedding is purely functional, so the fields are never mutated and the
invariant is preserved by every operation. -/
theorem C6_regions_invariant (c : Circle) (hr : 0 < c.radius) :
    c.inner_region ⊆ c.outer_region ∧
    ∀ p ∈ c.boundary, distance_to p c.center = c.radius + EPSILON := by
  constructor
  · intro p hp
    have h1 : distance_to p c.center ≤ c.radius := hp
    show distance_to p c.center ≤ c.radius + EPSILON
    unfold EPSILON
    linarith
  · intro p hp
    unfold Circle.boundary ring_points at hp
    simp only [List.mem_map, List.mem_range] at hp
    obtain ⟨k, _, rfl⟩ := hp
    rw [distance_shifted, abs_of_nonneg]
    unfold EPSILON
    linarith

/-- Witness for C6 at the unit circle about the origin. -/
theorem C6_regions_invariant_witness :
    (0 : ℝ) < 1 ∧
    ((Circle.mk ((0 : ℝ), (0 : ℝ)) 1).inner_region
        ⊆ (Circle.mk ((0 : ℝ), (0 : ℝ)) 1).outer_region ∧
      ∀ p ∈ (Circle.mk ((0 : ℝ), (0 : ℝ)) 1).boundary,
        distance_to p (Circle.mk ((0 : ℝ), (0 : ℝ)) 1).center
          = (Circle.mk ((0 : ℝ), (0 : ℝ)) 1).radius + EPSILON) :=
  ⟨by norm_num, C6_regions_invariant (Circle.mk ((0 : ℝ), (0 : ℝ)) 1) (by norm_num)⟩

/-- C10: for every pair of input points — including `start = finish` — the sampled
boundary list is non-empty, so the orientation step reading its first element never
fails, and the returned polyline is non-empty as well. -/
theorem C10_boundary_nonempty (c : Circle) (s e : Coord) :
    boundary_samples c s e ≠ [] ∧ c.get_boundary_between s e ≠ [] := by
  have h1 : boundary_samples c s e ≠ [] := by
    unfold boundary_samples
    dsimp only
    split
    · simp
    · simp
  refine ⟨h1, ?_⟩
  unfold Circle.get_boundary_between
  dsimp only
  split
  · simpa using h1
  · exact h1

/-- C5: `arc_length_between` returns exactly `|θ1 - θ2| · radius` on the raw
(unnormalized) angular difference; when that difference exceeds `π` the result
exceeds `π · radius`, so it is not the minor-arc length. -/
theorem C5_arc_length (c : Circle) (s e : Coord) (hr : 0 < c.radius) :
    c.arc_length_between s e =
      |calculate_directional_angle_of_line c.center s -
        calculate_directional_angle_of_line c.center e| * c.radius ∧
    (Real.pi < |calculate_directional_angle_of_line c.center s -
        calculate_directional_angle_of_line c.center e| →
      Real.pi * c.radius < c.arc_length_between s e) := by
  refine ⟨rfl, fun h => ?_⟩
  unfold Circle.arc_length_between
  exact mul_lt_mul_of_pos_right h hr

/-- Witness for C5: on the unit circle about the origin, the angular positions of
`(1, 0)` and `(0, -1)` are `0` and `3π/2`, whose raw difference exceeds `π`. -/
theorem C5_arc_length_witness :
    Real.pi < |calculate_directional_angle_of_line ((0 : ℝ), (0 : ℝ)) ((1 : ℝ), (0 : ℝ)) -
      calculate_directional_angle_of_line ((0 : ℝ), (0 : ℝ)) ((0 : ℝ), (-1 : ℝ))| ∧
    Real.pi * (Circle.mk ((0 : ℝ), (0 : ℝ)) 1).radius <
      (Circle.mk ((0 : ℝ), (0 : ℝ)) 1).arc_length_between ((1 : ℝ), (0 : ℝ)) ((0 : ℝ), (-1 : ℝ)) := by
  have ha : calculate_directional_angle_of_line ((0 : ℝ), (0 : ℝ)) ((1 : ℝ), (0 : ℝ)) = 0 := by
    unfold calculate_directional_angle_of_line segment_angle
    have h1 : (⟨(1 : ℝ) - 0, (0 : ℝ) - 0⟩ : ℂ) = 1 := by
      apply Complex.ext <;> simp
    rw [h1, Complex.arg_one]
    norm_num
  have hb : calculate_directional_angle_of_line ((0 : ℝ), (0 : ℝ)) ((0 : ℝ), (-1 : ℝ))
      = 3 * Real.pi / 2 := by
    unfold calculate_directional_angle_of_line segment_angle
    have h1 : (⟨(0 : ℝ) - 0, (-1 : ℝ) - 0⟩ : ℂ) = -Complex.I := by
      apply Complex.ext <;> simp
    rw [h1, Complex.arg_neg_I]
    rw [if_pos (by linarith [Real.pi_pos] : -(Real.pi / 2) < 0)]
    ring
  have hgt : Real.pi < |calculate_directional_angle_of_line ((0 : ℝ), (0 : ℝ)) ((1 : ℝ), (0 : ℝ)) -
      calculate_directional_angle_of_line ((0 : ℝ), (0 : ℝ)) ((0 : ℝ), (-1 : ℝ))| := by
    rw [ha, hb, zero_sub, abs_neg, abs_of_nonneg (by positivity)]
    linarith [Real.pi_pos]
  exact ⟨hgt, (C5_arc_length (Circle.mk ((0 : ℝ), (0 : ℝ)) 1) ((1 : ℝ), (0 : ℝ))
    ((0 : ℝ), (-1 : ℝ)) (by norm_num)).2 hgt⟩

/-! ### Helper lemmas for boundary sampling -/

/-- Shifting is `2π`-periodic in the angle. -/
lemma shifted_add_two_pi (p : Coord) (d θ : ℝ) :
    shifted p d (θ + 2 * Real.pi) = shifted p d θ := by
  unfold shifted
  rw [Real.cos_add_two_pi, Real.sin_add_two_pi]

/-- Unfolding `headI` through `head?`. -/
lemma headI_eq_iget_head? {α : Type} [Inhabited α] (l : List α) : l.headI = l.head?.iget := by
  cases l <;> rfl

/-- The first element of a reversed list is its last element. -/
lemma headI_reverse {α : Type} [Inhabited α] (l : List α) : l.reverse.headI = l.getLastI := by
  rw [headI_eq_iget_head?, List.head?_reverse, List.getLastI_eq_getLast?]

/-- Unfolding a concrete distance computation. -/
lemma distance_to_eval (a b x y : ℝ) :
    distance_to (a, b) (x, y) = Real.sqrt ((a - x) ^ 2 + (b - y) ^ 2) := rfl

/-- Square root of 9 is 3. -/
lemma sqrt_nine : Real.sqrt 9 = 3 := by
  rw [show (9 : ℝ) = 3 ^ 2 by norm_num]
  exact Real.sqrt_sq (by norm_num)

/-- Directional angle from the origin to a point on the positive x-axis. -/
lemma dir_angle_east (x : ℝ) (hx : 0 < x) :
    calculate_directional_angle_of_line ((0 : ℝ), (0 : ℝ)) (x, (0 : ℝ)) = 0 := by
  unfold calculate_directional_angle_of_line segment_angle
  have h1 : (⟨x - 0, (0 : ℝ) - 0⟩ : ℂ) = ((x : ℝ) : ℂ) := by
    apply Complex.ext <;> simp
  rw [h1, Complex.arg_ofReal_of_nonneg (le_of_lt hx)]
  norm_num

/-- Directional angle from the origin to a point on the positive y-axis. -/
lemma dir_angle_north (y : ℝ) (hy : 0 < y) :
    calculate_directional_angle_of_line ((0 : ℝ), (0 : ℝ)) ((0 : ℝ), y) = Real.pi / 2 := by
  unfold calculate_directional_angle_of_line segment_angle
  have h1 : (⟨(0 : ℝ) - 0, y - 0⟩ : ℂ) = (y : ℝ) * Complex.I := by
    apply Complex.ext <;> simp
  rw [h1]
  rw [Complex.arg_real_mul Complex.I hy, Complex.arg_I]
  rw [if_neg (by linarith [Real.pi_pos])]

/-! ### Claim theorems: C2 and C4 -/

/-- C2: `get_boundary_between` samples, before orientation, exactly the spec's
algorithm: with `lo, hi` the extreme angular positions, the direct interval
`[lo, hi]` forward at step `π/40` when `hi - lo ≤ π`, otherwise the wraparound
interval `[hi, lo + 2π]` forward at the same step; the sampled angular extent never
exceeds `π`, and the returned polyline is the sampled list up to reversal. -/
theorem C2_boundary_between_sampling (c : Circle) (s e : Coord) (lo hi : ℝ)
    (hlo : lo = min (calculate_directional_angle_of_line c.center s)
      (calculate_directional_angle_of_line c.center e))
    (hhi : hi = max (calculate_directional_angle_of_line c.center s)
      (calculate_directional_angle_of_line c.center e)) :
    (hi - lo ≤ Real.pi →
      boundary_samples c s e =
        (List.range (Nat.ceil ((hi - lo) / ANGLE_STEP))).map
            (fun i : ℕ => shifted c.center (c.radius + EPSILON) (lo + (i : ℝ) * ANGLE_STEP))
          ++ [shifted c.center (c.radius + EPSILON) hi]) ∧
    (Real.pi < hi - lo →
      boundary_samples c s e =
        (List.range (Nat.ceil ((lo + 2 * Real.pi - hi) / ANGLE_STEP))).map
            (fun i : ℕ => shifted c.center (c.radius + EPSILON) (hi + (i : ℝ) * ANGLE_STEP))
          ++ [shifted c.center (c.radius + EPSILON) (lo + 2 * Real.pi)]) ∧
    (Real.pi < hi - lo → lo + 2 * Real.pi - hi ≤ Real.pi) ∧
    (c.get_boundary_between s e = boundary_samples c s e ∨
      c.get_boundary_between s e = (boundary_samples c s e).reverse) := by
  subst hlo hhi
  refine ⟨?_, ?_, ?_, ?_⟩
  · intro h
    unfold boundary_samples
    dsimp only
    rw [if_pos h]
    congr 1
    exact boundary_loop_closed_form c _ _ _ rfl
  · intro h
    unfold boundary_samples
    dsimp only
    rw [if_neg (not_le.mpr h)]
    rw [shifted_add_two_pi]
    congr 1
    exact boundary_loop_closed_form c _ _ _ rfl
  · intro h
    have := min_le_max (a := calculate_directional_angle_of_line c.center s)
      (b := calculate_directional_angle_of_line c.center e)
    linarith
  · unfold Circle.get_boundary_between
    dsimp only
    split
    · exact Or.inr rfl
    · exact Or.inl rfl

/-- Witness for C2 on the unit circle about the origin with `start = (1,0)`,
`finish = (0,1)`: the angular positions are `0` and `π/2`, so the direct interval
is sampled. -/
theorem C2_boundary_between_sampling_witness :
    (max (calculate_directional_angle_of_line ((0 : ℝ), (0 : ℝ)) ((1 : ℝ), (0 : ℝ)))
        (calculate_directional_angle_of_line ((0 : ℝ), (0 : ℝ)) ((0 : ℝ), (1 : ℝ)))
      - min (calculate_directional_angle_of_line ((0 : ℝ), (0 : ℝ)) ((1 : ℝ), (0 : ℝ)))
        (calculate_directional_angle_of_line ((0 : ℝ), (0 : ℝ)) ((0 : ℝ), (1 : ℝ)))
      ≤ Real.pi) ∧
    boundary_samples (Circle.mk ((0 : ℝ), (0 : ℝ)) 1) ((1 : ℝ), (0 : ℝ)) ((0 : ℝ), (1 : ℝ)) =
      (List.range (Nat.ceil
          ((max (calculate_directional_angle_of_line ((0 : ℝ), (0 : ℝ)) ((1 : ℝ), (0 : ℝ)))
              (calculate_directional_angle_of_line ((0 : ℝ), (0 : ℝ)) ((0 : ℝ), (1 : ℝ)))
            - min (calculate_directional_angle_of_line ((0 : ℝ), (0 : ℝ)) ((1 : ℝ), (0 : ℝ)))
              (calculate_directional_angle_of_line ((0 : ℝ), (0 : ℝ)) ((0 : ℝ), (1 : ℝ))))
            / ANGLE_STEP))).map
          (fun i : ℕ => shifted ((0 : ℝ), (0 : ℝ)) ((1 : ℝ) + EPSILON)
            (min (calculate_directional_angle_of_line ((0 : ℝ), (0 : ℝ)) ((1 : ℝ), (0 : ℝ)))
              (calculate_directional_angle_of_line ((0 : ℝ), (0 : ℝ)) ((0 : ℝ), (1 : ℝ)))
              + (i : ℝ) * ANGLE_STEP))
        ++ [shifted ((0 : ℝ), (0 : ℝ)) ((1 : ℝ) + EPSILON)
          (max (calculate_directional_angle_of_line ((0 : ℝ), (0 : ℝ)) ((1 : ℝ), (0 : ℝ)))
            (calculate_directional_angle_of_line ((0 : ℝ), (0 : ℝ)) ((0 : ℝ), (1 : ℝ))))] := by
  have ha : calculate_directional_angle_of_line ((0 : ℝ), (0 : ℝ)) ((1 : ℝ), (0 : ℝ)) = 0 :=
    dir_angle_east 1 one_pos
  have hb : calculate_directional_angle_of_line ((0 : ℝ), (0 : ℝ)) ((0 : ℝ), (1 : ℝ))
      = Real.pi / 2 := dir_angle_north 1 one_pos
  have hyp : max (calculate_directional_angle_of_line ((0 : ℝ), (0 : ℝ)) ((1 : ℝ), (0 : ℝ)))
        (calculate_directional_angle_of_line ((0 : ℝ), (0 : ℝ)) ((0 : ℝ), (1 : ℝ)))
      - min (calculate_directional_angle_of_line ((0 : ℝ), (0 : ℝ)) ((1 : ℝ), (0 : ℝ)))
        (calculate_directional_angle_of_line ((0 : ℝ), (0 : ℝ)) ((0 : ℝ), (1 : ℝ)))
      ≤ Real.pi := by
    rw [ha, hb]
    rw [max_eq_right (by positivity), min_eq_left (by positivity)]
    linarith [Real.pi_pos]
  exact ⟨hyp, (C2_boundary_between_sampling (Circle.mk ((0 : ℝ), (0 : ℝ)) 1)
    ((1 : ℝ), (0 : ℝ)) ((0 : ℝ), (1 : ℝ)) _ _ rfl rfl).1 hyp⟩

/-- Shared evaluation: for the circle of radius 3 about the origin and the collinear
points `(1,0)`, `(2,0)` (equal angular positions), the sampled list is the single
point `(4, 0)`. -/
lemma boundary_samples_collinear_eval :
    boundary_samples (Circle.mk ((0 : ℝ), (0 : ℝ)) 3) ((1 : ℝ), (0 : ℝ)) ((2 : ℝ), (0 : ℝ))
      = [((4 : ℝ), (0 : ℝ))] := by
  have h1 : calculate_directional_angle_of_line
      (Circle.mk ((0 : ℝ), (0 : ℝ)) 3).center ((1 : ℝ), (0 : ℝ)) = 0 := dir_angle_east 1 one_pos
  have h2 : calculate_directional_angle_of_line
      (Circle.mk ((0 : ℝ), (0 : ℝ)) 3).center ((2 : ℝ), (0 : ℝ)) = 0 := dir_angle_east 2 two_pos
  unfold boundary_samples
  dsimp only
  rw [h1, h2]
  rw [min_self, max_self]
  rw [if_pos (by simpa using Real.pi_pos.le)]
  rw [boundary_loop, dif_neg (lt_irrefl 0)]
  rw [List.nil_append]
  unfold shifted EPSILON
  norm_num

/-- Shared evaluation: the returned polyline at the collinear example. -/
lemma get_boundary_between_collinear_eval :
    (Circle.mk ((0 : ℝ), (0 : ℝ)) 3).get_boundary_between ((1 : ℝ), (0 : ℝ)) ((2 : ℝ), (0 : ℝ))
      = [((4 : ℝ), (0 : ℝ))] := by
  unfold Circle.get_boundary_between
  dsimp only
  rw [boundary_samples_collinear_eval]
  rw [if_pos]
  · rfl
  · show ¬ (distance_to ((4 : ℝ), (0 : ℝ)) ((1 : ℝ), (0 : ℝ))
      < distance_to ((4 : ℝ), (0 : ℝ)) ((2 : ℝ), (0 : ℝ)))
    rw [distance_to_eval, distance_to_eval]
    rw [show ((4 : ℝ) - 1) ^ 2 + ((0 : ℝ) - 0) ^ 2 = 9 by norm_num]
    rw [show ((4 : ℝ) - 2) ^ 2 + ((0 : ℝ) - 0) ^ 2 = 4 by norm_num]
    rw [sqrt_nine, sqrt_four]
    norm_num

/-- C4 counterexample: for the circle of radius 3 about the origin, `start = (1,0)` and
`finish = (2,0)` subtend the same angle; the single sampled point `(4,0)` is strictly
nearer to `finish`, the list is reversed (to itself), and the first point of the
result is not nearer to `start` — refuting the claimed orientation property. -/
theorem C4_orientation_counterexample :
    ¬ (distance_to ((Circle.mk ((0 : ℝ), (0 : ℝ)) 3).get_boundary_between
          ((1 : ℝ), (0 : ℝ)) ((2 : ℝ), (0 : ℝ))).headI ((1 : ℝ), (0 : ℝ))
      < distance_to ((Circle.mk ((0 : ℝ), (0 : ℝ)) 3).get_boundary_between
          ((1 : ℝ), (0 : ℝ)) ((2 : ℝ), (0 : ℝ))).headI ((2 : ℝ), (0 : ℝ))) := by
  rw [get_boundary_between_collinear_eval]
  show ¬ (distance_to ((4 : ℝ), (0 : ℝ)) ((1 : ℝ), (0 : ℝ))
    < distance_to ((4 : ℝ), (0 : ℝ)) ((2 : ℝ), (0 : ℝ)))
  rw [distance_to_eval, distance_to_eval]
  rw [show ((4 : ℝ) - 1) ^ 2 + ((0 : ℝ) - 0) ^ 2 = 9 by norm_num]
  rw [show ((4 : ℝ) - 2) ^ 2 + ((0 : ℝ) - 0) ^ 2 = 4 by norm_num]
  rw [sqrt_nine, sqrt_four]
  norm_num

/-- C4 amended: the sampled sequence is returned unchanged exactly when its first
point is strictly nearer to `start` than to `finish`, and otherwise returned
reversed, making the result's first point the last sampled point; in degenerate
configurations (e.g. equal angular positions) the result's first point need not be
nearer to `start`. -/
theorem C4_orientation_amended (c : Circle) (s e : Coord) :
    (distance_to (boundary_samples c s e).headI s < distance_to (boundary_samples c s e).headI e →
      c.get_boundary_between s e = boundary_samples c s e) ∧
    (¬ (distance_to (boundary_samples c s e).headI s
        < distance_to (boundary_samples c s e).headI e) →
      c.get_boundary_between s e = (boundary_samples c s e).reverse ∧
      (c.get_boundary_between s e).headI = (boundary_samples c s e).getLastI) := by
  constructor
  · intro h
    unfold Circle.get_boundary_between
    dsimp only
    rw [if_neg (not_not_intro h)]
  · intro h
    unfold Circle.get_boundary_between
    dsimp only
    rw [if_pos h]
    exact ⟨rfl, headI_reverse _⟩

/-- Witness for the amended C4 at the collinear example, where the reversal branch is
taken. -/
theorem C4_orientation_amended_witness :
    ¬ (distance_to (boundary_samples (Circle.mk ((0 : ℝ), (0 : ℝ)) 3)
          ((1 : ℝ), (0 : ℝ)) ((2 : ℝ), (0 : ℝ))).headI ((1 : ℝ), (0 : ℝ))
      < distance_to (boundary_samples (Circle.mk ((0 : ℝ), (0 : ℝ)) 3)
          ((1 : ℝ), (0 : ℝ)) ((2 : ℝ), (0 : ℝ))).headI ((2 : ℝ), (0 : ℝ))) ∧
    ((Circle.mk ((0 : ℝ), (0 : ℝ)) 3).get_boundary_between ((1 : ℝ), (0 : ℝ)) ((2 : ℝ), (0 : ℝ))
        = (boundary_samples (Circle.mk ((0 : ℝ), (0 : ℝ)) 3)
          ((1 : ℝ), (0 : ℝ)) ((2 : ℝ), (0 : ℝ))).reverse ∧
      ((Circle.mk ((0 : ℝ), (0 : ℝ)) 3).get_boundary_between
          ((1 : ℝ), (0 : ℝ)) ((2 : ℝ), (0 : ℝ))).headI
        = (boundary_samples (Circle.mk ((0 : ℝ), (0 : ℝ)) 3)
          ((1 : ℝ), (0 : ℝ)) ((2 : ℝ), (0 : ℝ))).getLastI) := by
  have hyp : ¬ (distance_to (boundary_samples (Circle.mk ((0 : ℝ), (0 : ℝ)) 3)
        ((1 : ℝ), (0 : ℝ)) ((2 : ℝ), (0 : ℝ))).headI ((1 : ℝ), (0 : ℝ))
      < distance_to (boundary_samples (Circle.mk ((0 : ℝ), (0 : ℝ)) 3)
        ((1 : ℝ), (0 : ℝ)) ((2 : ℝ), (0 : ℝ))).headI ((2 : ℝ), (0 : ℝ))) := by
    rw [boundary_samples_collinear_eval]
    show ¬ (distance_to ((4 : ℝ), (0 : ℝ)) ((1 : ℝ), (0 : ℝ))
      < distance_to ((4 : ℝ), (0 : ℝ)) ((2 : ℝ), (0 : ℝ)))
    rw [distance_to_eval, distance_to_eval]
    rw [show ((4 : ℝ) - 1) ^ 2 + ((0 : ℝ) - 0) ^ 2 = 9 by norm_num]
    rw [show ((4 : ℝ) - 2) ^ 2 + ((0 : ℝ) - 0) ^ 2 = 4 by norm_num]
    rw [sqrt_nine, sqrt_four]
    norm_num
  exact ⟨hyp, (C4_orientation_amended (Circle.mk ((0 : ℝ), (0 : ℝ)) 3)
    ((1 : ℝ), (0 : ℝ)) ((2 : ℝ), (0 : ℝ))).2 hyp⟩

/-! ### Helper lemmas for the exit-point construction -/

/-- Distance equals `r` exactly when the squared coordinates sum to `r²`. -/
lemma distance_to_eq_iff (p q : Coord) (r : ℝ) (hr : 0 ≤ r) :
    distance_to p q = r ↔ (p.1 - q.1) ^ 2 + (p.2 - q.2) ^ 2 = r ^ 2 := by
  unfold distance_to
  exact Real.sqrt_eq_iff_eq_sq (by positivity) hr

/-- Any point on the circle of radius `r` about the relative center `(dx, dy)`
whose distance from the relative origin is `ch` is one of the two intersection
candidates. Coordinates are relative to `start`: `d = (dx, dy)` points to the
center, `v = (vx, vy)` to the queried point. -/
lemma exit_candidates_complete (r ch a b dx dy vx vy : ℝ) (hr : 0 < r)
    (hd2 : dx ^ 2 + dy ^ 2 = r ^ 2) (haa : a * (2 * r) = ch ^ 2)
    (hb2 : b ^ 2 = ch ^ 2 - a ^ 2)
    (hcirc : (vx - dx) ^ 2 + (vy - dy) ^ 2 = r ^ 2) (hch : vx ^ 2 + vy ^ 2 = ch ^ 2) :
    (vx = a * (dx / r) - b * (dy / r) ∧ vy = a * (dy / r) + b * (dx / r)) ∨
    (vx = a * (dx / r) + b * (dy / r) ∧ vy = a * (dy / r) - b * (dx / r)) := by
  have hr0 : r ≠ 0 := ne_of_gt hr
  have hdot : vx * dx + vy * dy = a * r := by
    linear_combination (-1 / 2 : ℝ) * hcirc + (1 / 2 : ℝ) * hch + (1 / 2 : ℝ) * hd2
      - (1 / 2 : ℝ) * haa
  have hbeta : (vy * dx - vx * dy) ^ 2 = (b * r) ^ 2 := by
    linear_combination (dx ^ 2 + dy ^ 2) * hch + ch ^ 2 * hd2
      - (vx * dx + vy * dy + a * r) * hdot - r ^ 2 * hb2
  have hfact : (vy * dx - vx * dy - b * r) * (vy * dx - vx * dy + b * r) = 0 := by
    linear_combination hbeta
  rcases mul_eq_zero.mp hfact with hcase | hcase
  · left
    have hc : vy * dx - vx * dy = b * r := by linarith
    have hvx : vx * r * r = (a * dx - b * dy) * r := by
      linear_combination dx * hdot - dy * hc - vx * hd2
    have hvy : vy * r * r = (a * dy + b * dx) * r := by
      linear_combination dy * hdot + dx * hc - vy * hd2
    have hvx2 : vx * r = a * dx - b * dy := mul_right_cancel₀ hr0 hvx
    have hvy2 : vy * r = a * dy + b * dx := mul_right_cancel₀ hr0 hvy
    constructor
    · field_simp
      linarith [hvx2]
    · field_simp
      linarith [hvy2]
  · right
    have hc : vy * dx - vx * dy = -(b * r) := by linarith
    have hvx : vx * r * r = (a * dx + b * dy) * r := by
      linear_combination dx * hdot - dy * hc - vx * hd2
    have hvy : vy * r * r = (a * dy - b * dx) * r := by
      linear_combination dy * hdot + dx * hc - vy * hd2
    have hvx2 : vx * r = a * dx + b * dy := mul_right_cancel₀ hr0 hvx
    have hvy2 : vy * r = a * dy - b * dx := mul_right_cancel₀ hr0 hvy
    constructor
    · field_simp
      linarith [hvx2]
    · field_simp
      linarith [hvy2]

/-- The two candidates lie on the circle and at the right chord distance
(relative coordinates as in `exit_candidates_complete`). -/
lemma exit_candidates_sound (r ch a b dx dy : ℝ) (hr : 0 < r)
    (hd2 : dx ^ 2 + dy ^ 2 = r ^ 2) (haa : a * (2 * r) = ch ^ 2)
    (hb2 : b ^ 2 = ch ^ 2 - a ^ 2) :
    ((a * (dx / r) - b * (dy / r)) - dx) ^ 2 + ((a * (dy / r) + b * (dx / r)) - dy) ^ 2 = r ^ 2 ∧
    (a * (dx / r) - b * (dy / r)) ^ 2 + (a * (dy / r) + b * (dx / r)) ^ 2 = ch ^ 2 ∧
    ((a * (dx / r) + b * (dy / r)) - dx) ^ 2 + ((a * (dy / r) - b * (dx / r)) - dy) ^ 2 = r ^ 2 ∧
    (a * (dx / r) + b * (dy / r)) ^ 2 + (a * (dy / r) - b * (dx / r)) ^ 2 = ch ^ 2 := by
  have hr0 : r ≠ 0 := ne_of_gt hr
  have haux : (a - r) ^ 2 + b ^ 2 = r ^ 2 := by linear_combination hb2 - haa
  have hab : a ^ 2 + b ^ 2 = ch ^ 2 := by linear_combination hb2
  refine ⟨?_, ?_, ?_, ?_⟩
  · field_simp
    linear_combination ((a - r) ^ 2 + b ^ 2) * hd2 + (r ^ 2) * haux
  · field_simp
    linear_combination (a ^ 2 + b ^ 2) * hd2 + (r ^ 2) * hab
  · field_simp
    linear_combination ((a - r) ^ 2 + b ^ 2) * hd2 + (r ^ 2) * haux
  · field_simp
    linear_combination (a ^ 2 + b ^ 2) * hd2 + (r ^ 2) * hab

/-- Python's two-element `min` with a key: first element wins ties. -/
lemma min_by_key_pair_cases (f : Coord → ℝ) (p q : Coord) :
    (f q < f p → min_by_key f [p, q] = q) ∧ (¬ f q < f p → min_by_key f [p, q] = p) := by
  constructor <;> intro h
  · show List.foldl (fun acc y => if f y < f acc then y else acc) p [q] = q
    rw [List.foldl_cons, List.foldl_nil]
    exact if_pos h
  · show List.foldl (fun acc y => if f y < f acc then y else acc) p [q] = p
    rw [List.foldl_cons, List.foldl_nil]
    exact if_neg h

/-! ### Claim theorem: C1 -/

/-- C1: for a circle of positive radius and `start` on the circle, `calculate_exit_point`
returns, for `chord ≥ 2·radius`, the point obtained by shifting `start` a distance of
exactly `2·radius` along the unit direction from `start` toward the center; otherwise
(`0 ≤ chord < 2·radius`) it returns a point on the circle at distance `chord` from
`start` whose distance to `target` is minimal among all such points. -/
theorem C1_exit_point (c : Circle) (start target : Coord) (chord : ℝ)
    (hr : 0 < c.radius) (hon : distance_to start c.center = c.radius) :
    (c.radius * 2 ≤ chord →
      c.calculate_exit_point start chord target =
        (start.1 + 2 * c.radius * ((c.center.1 - start.1) / distance_to start c.center),
         start.2 + 2 * c.radius * ((c.center.2 - start.2) / distance_to start c.center))) ∧
    (0 ≤ chord → chord < c.radius * 2 →
      (distance_to (c.calculate_exit_point start chord target) c.center = c.radius ∧
        distance_to (c.calculate_exit_point start chord target) start = chord) ∧
      ∀ q : Coord, distance_to q c.center = c.radius → distance_to q start = chord →
        distance_to (c.calculate_exit_point start chord target) target
          ≤ distance_to q target) := by
  have hr0 : c.radius ≠ 0 := ne_of_gt hr
  have hd2 : (c.center.1 - start.1) ^ 2 + (c.center.2 - start.2) ^ 2 = c.radius ^ 2 := by
    have h := (distance_to_eq_iff start c.center c.radius hr.le).mp hon
    linear_combination h
  constructor
  · -- diametral branch
    intro h
    unfold Circle.calculate_exit_point
    rw [if_pos h]
    have hz : (⟨c.center.1 - start.1, c.center.2 - start.2⟩ : ℂ) ≠ 0 := by
      intro hz0
      rw [Complex.ext_iff] at hz0
      simp only [Complex.zero_re, Complex.zero_im] at hz0
      rw [hz0.1, hz0.2] at hd2
      have : c.radius ^ 2 = 0 := by linarith [hd2]
      have := pow_eq_zero_iff (n := 2) (by norm_num) |>.mp this
      exact hr0 this
    have habs : Complex.abs ⟨c.center.1 - start.1, c.center.2 - start.2⟩ = c.radius := by
      rw [Complex.abs_apply, Complex.normSq_mk]
      rw [show (c.center.1 - start.1) * (c.center.1 - start.1)
          + (c.center.2 - start.2) * (c.center.2 - start.2)
          = (c.center.1 - start.1) ^ 2 + (c.center.2 - start.2) ^ 2 by ring]
      rw [hd2]
      exact Real.sqrt_sq hr.le
    have hcos : Real.cos ((Segment.mk start c.center).angle)
        = (c.center.1 - start.1) / c.radius := by
      show Real.cos (segment_angle start c.center) = _
      unfold segment_angle
      rw [Complex.cos_arg hz]
      rw [habs]
    have hsin : Real.sin ((Segment.mk start c.center).angle)
        = (c.center.2 - start.2) / c.radius := by
      show Real.sin (segment_angle start c.center) = _
      unfold segment_angle
      rw [Complex.sin_arg]
      rw [habs]
    unfold shifted
    rw [hcos, hsin, hon]
  · -- two-candidate branch
    intro h0 h2
    unfold Circle.calculate_exit_point
    rw [if_neg (not_le.mpr h2)]
    unfold calculate_points_in_distance_on_circle
    dsimp only
    rw [hon]
    set r := c.radius with hrdef
    set a := (chord ^ 2 + r ^ 2 - r ^ 2) / (2 * r) with hadef
    set b := Real.sqrt (chord ^ 2 - a ^ 2) with hbdef
    have haa : a * (2 * r) = chord ^ 2 := by
      rw [hadef]
      field_simp
    have hchsq : chord ^ 2 < (2 * r) ^ 2 := by nlinarith
    have hbpos : 0 ≤ chord ^ 2 - a ^ 2 := by
      have ha2 : a ^ 2 * (4 * r ^ 2) = chord ^ 4 := by
        linear_combination (a * (2 * r) + chord ^ 2) * haa
      have hnn : 0 ≤ chord ^ 2 * ((2 * r) ^ 2 - chord ^ 2) :=
        mul_nonneg (sq_nonneg _) (by linarith)
      nlinarith [ha2, hnn, sq_nonneg r, hr]
    have hb2 : b ^ 2 = chord ^ 2 - a ^ 2 := Real.sq_sqrt hbpos
    have hsound := exit_candidates_sound r chord a b
      (c.center.1 - start.1) (c.center.2 - start.2) hr hd2 haa hb2
    set P1 : Coord := (start.1 + a * ((c.center.1 - start.1) / r)
        - b * ((c.center.2 - start.2) / r),
      start.2 + a * ((c.center.2 - start.2) / r)
        + b * ((c.center.1 - start.1) / r)) with hP1
    set P2 : Coord := (start.1 + a * ((c.center.1 - start.1) / r)
        + b * ((c.center.2 - start.2) / r),
      start.2 + a * ((c.center.2 - start.2) / r)
        - b * ((c.center.1 - start.1) / r)) with hP2
    have hP1circ : distance_to P1 c.center = r := by
      rw [distance_to_eq_iff _ _ _ hr.le, hP1]
      dsimp only
      linear_combination hsound.1
    have hP1chord : distance_to P1 start = chord := by
      rw [distance_to_eq_iff _ _ _ h0, hP1]
      dsimp only
      linear_combination hsound.2.1
    have hP2circ : distance_to P2 c.center = r := by
      rw [distance_to_eq_iff _ _ _ hr.le, hP2]
      dsimp only
      linear_combination hsound.2.2.1
    have hP2chord : distance_to P2 start = chord := by
      rw [distance_to_eq_iff _ _ _ h0, hP2]
      dsimp only
      linear_combination hsound.2.2.2
    have hcomplete : ∀ q : Coord, distance_to q c.center = r → distance_to q start = chord →
        q = P1 ∨ q = P2 := by
      intro q hq1 hq2
      have hq1s : (q.1 - c.center.1) ^ 2 + (q.2 - c.center.2) ^ 2 = r ^ 2 :=
        (distance_to_eq_iff _ _ _ hr.le).mp hq1
      have hq2s : (q.1 - start.1) ^ 2 + (q.2 - start.2) ^ 2 = chord ^ 2 :=
        (distance_to_eq_iff _ _ _ h0).mp hq2
      have hcc := exit_candidates_complete r chord a b
        (c.center.1 - start.1) (c.center.2 - start.2) (q.1 - start.1) (q.2 - start.2)
        hr hd2 haa hb2 (by linear_combination hq1s) (by linear_combination hq2s)
      rcases hcc with ⟨hx, hy⟩ | ⟨hx, hy⟩
      · left
        rw [hP1, show q = (q.1, q.2) from rfl, Prod.mk.injEq]
        constructor <;> linarith
      · right
        rw [hP2, show q = (q.1, q.2) from rfl, Prod.mk.injEq]
        constructor <;> linarith
    by_cases hc : distance_to P2 target < distance_to P1 target
    · rw [(min_by_key_pair_cases (fun p => distance_to p target) P1 P2).1 hc]
      refine ⟨⟨hP2circ, hP2chord⟩, ?_⟩
      intro q hq1 hq2
      rcases hcomplete q hq1 hq2 with hqe | hqe
      · rw [hqe]
        exact le_of_lt hc
      · rw [hqe]
    · rw [(min_by_key_pair_cases (fun p => distance_to p target) P1 P2).2 hc]
      refine ⟨⟨hP1circ, hP1chord⟩, ?_⟩
      intro q hq1 hq2
      rcases hcomplete q hq1 hq2 with hqe | hqe
      · rw [hqe]
      · rw [hqe]
        exact not_lt.mp hc

/-- Witness for C1 at the unit circle about the origin, `start = (1,0)` on the circle
and diametral chord 2. -/
theorem C1_exit_point_witness :
    (0 : ℝ) < 1 ∧
    distance_to ((1 : ℝ), (0 : ℝ)) (Circle.mk ((0 : ℝ), (0 : ℝ)) 1).center
      = (Circle.mk ((0 : ℝ), (0 : ℝ)) 1).radius ∧
    ((Circle.mk ((0 : ℝ), (0 : ℝ)) 1).radius * 2 ≤ (2 : ℝ) →
      (Circle.mk ((0 : ℝ), (0 : ℝ)) 1).calculate_exit_point ((1 : ℝ), (0 : ℝ)) 2
          ((5 : ℝ), (5 : ℝ)) =
        ((1 : ℝ) + 2 * (Circle.mk ((0 : ℝ), (0 : ℝ)) 1).radius
            * (((0 : ℝ) - 1) / distance_to ((1 : ℝ), (0 : ℝ)) (Circle.mk ((0 : ℝ), (0 : ℝ)) 1).center),
         (0 : ℝ) + 2 * (Circle.mk ((0 : ℝ), (0 : ℝ)) 1).radius
            * (((0 : ℝ) - 0) / distance_to ((1 : ℝ), (0 : ℝ)) (Circle.mk ((0 : ℝ), (0 : ℝ)) 1).center))) := by
  have hd : distance_to ((1 : ℝ), (0 : ℝ)) (Circle.mk ((0 : ℝ), (0 : ℝ)) 1).center
      = (Circle.mk ((0 : ℝ), (0 : ℝ)) 1).radius := by
    show Real.sqrt (((1 : ℝ) - 0) ^ 2 + ((0 : ℝ) - 0) ^ 2) = 1
    rw [show ((1 : ℝ) - 0) ^ 2 + ((0 : ℝ) - 0) ^ 2 = 1 by norm_num]
    exact Real.sqrt_one
  exact ⟨by norm_num, hd,
    (C1_exit_point (Circle.mk ((0 : ℝ), (0 : ℝ)) 1) ((1 : ℝ), (0 : ℝ)) ((5 : ℝ), (5 : ℝ)) 2
      (by norm_num) hd).1⟩

/-! ### Concrete exit-point evaluations for the budget-path counterexample

The threat is the unit circle about the origin, with `source = (-2, 0)` and
`target = (0, 2)`; the chord values `1`, `√(9/5)` and `√(13/5)` produce
rational exit points. -/

/-- Projection of a literal circle's center. -/
lemma center_mk (p : Coord) (r : ℝ) : (Circle.mk p r).center = p := rfl

/-- Projection of a literal circle's radius. -/
lemma radius_mk (p : Coord) (r : ℝ) : (Circle.mk p r).radius = r := rfl

/-- Distance of the example source from the center. -/
lemma dist_S_center : distance_to ((-2 : ℝ), (0 : ℝ)) ((0 : ℝ), (0 : ℝ)) = 2 := by
  rw [distance_to_eval, show ((-2 : ℝ) - 0) ^ 2 + ((0 : ℝ) - 0) ^ 2 = 4 by norm_num]
  exact sqrt_four

/-- Distance of the example target from the center. -/
lemma dist_T_center : distance_to ((0 : ℝ), (2 : ℝ)) ((0 : ℝ), (0 : ℝ)) = 2 := by
  rw [distance_to_eval, show ((0 : ℝ) - 0) ^ 2 + ((2 : ℝ) - 0) ^ 2 = 4 by norm_num]
  exact sqrt_four

/-- Chord `√(9/5)` is below the diameter 2. -/
lemma sqrt95_lt_two : Real.sqrt (9 / 5) < 2 :=
  (Real.sqrt_lt' (by norm_num)).mpr (by norm_num)

/-- Chord `√(13/5)` is below the diameter 2. -/
lemma sqrt135_lt_two : Real.sqrt (13 / 5) < 2 :=
  (Real.sqrt_lt' (by norm_num)).mpr (by norm_num)

/-- Square root of 16 is 4. -/
lemma sqrt_sixteen : Real.sqrt 16 = 4 := by
  rw [show (16 : ℝ) = 4 ^ 2 by norm_num]
  exact Real.sqrt_sq (by norm_num)

/-- Square root of 25 is 5. -/
lemma sqrt_twentyfive : Real.sqrt 25 = 5 := by
  rw [show (25 : ℝ) = 5 ^ 2 by norm_num]
  exact Real.sqrt_sq (by norm_num)

/-- Exit point from the source at chord 1: the near point `(-1, 0)`. -/
lemma exit_S_c0 :
    (Circle.mk ((0 : ℝ), (0 : ℝ)) 1).calculate_exit_point ((-2 : ℝ), (0 : ℝ)) 1
      ((0 : ℝ), (2 : ℝ)) = ((-1 : ℝ), (0 : ℝ)) := by
  unfold Circle.calculate_exit_point
  simp only [center_mk, radius_mk]
  rw [if_neg (by norm_num : ¬ ((1 : ℝ) * 2 ≤ 1))]
  unfold calculate_points_in_distance_on_circle
  dsimp only
  rw [dist_S_center]
  norm_num
  exact (min_by_key_pair_cases _ _ _).2 (lt_irrefl _)

/-- Exit point from the target at chord 1: the near point `(0, 1)`. -/
lemma exit_T_c0 :
    (Circle.mk ((0 : ℝ), (0 : ℝ)) 1).calculate_exit_point ((0 : ℝ), (2 : ℝ)) 1
      ((-2 : ℝ), (0 : ℝ)) = ((0 : ℝ), (1 : ℝ)) := by
  unfold Circle.calculate_exit_point
  simp only [center_mk, radius_mk]
  rw [if_neg (by norm_num : ¬ ((1 : ℝ) * 2 ≤ 1))]
  unfold calculate_points_in_distance_on_circle
  dsimp only
  rw [dist_T_center]
  norm_num
  exact (min_by_key_pair_cases _ _ _).2 (lt_irrefl _)

/-- Exit point from the source at chord `√(9/5)`. -/
lemma exit_S_c1 :
    (Circle.mk ((0 : ℝ), (0 : ℝ)) 1).calculate_exit_point ((-2 : ℝ), (0 : ℝ))
      (Real.sqrt (9 / 5)) ((0 : ℝ), (2 : ℝ)) = ((-4 / 5 : ℝ), (3 / 5 : ℝ)) := by
  unfold Circle.calculate_exit_point
  simp only [center_mk, radius_mk]
  rw [if_neg (by intro hle; nlinarith [sqrt95_lt_two])]
  unfold calculate_points_in_distance_on_circle
  dsimp only
  rw [dist_S_center, Real.sq_sqrt (by norm_num : (0 : ℝ) ≤ 9 / 5)]
  norm_num
  rw [sqrt_nine, sqrt_twentyfive]
  norm_num
  rw [(min_by_key_pair_cases _ _ _).2 ?hcmp]
  case hcmp =>
    rw [distance_to_eval, distance_to_eval]
    exact not_lt.mpr (Real.sqrt_le_sqrt (by norm_num))

/-- Exit point from the target at chord `√(9/5)`. -/
lemma exit_T_c1 :
    (Circle.mk ((0 : ℝ), (0 : ℝ)) 1).calculate_exit_point ((0 : ℝ), (2 : ℝ))
      (Real.sqrt (9 / 5)) ((-2 : ℝ), (0 : ℝ)) = ((-3 / 5 : ℝ), (4 / 5 : ℝ)) := by
  unfold Circle.calculate_exit_point
  simp only [center_mk, radius_mk]
  rw [if_neg (by intro hle; nlinarith [sqrt95_lt_two])]
  unfold calculate_points_in_distance_on_circle
  dsimp only
  rw [dist_T_center, Real.sq_sqrt (by norm_num : (0 : ℝ) ≤ 9 / 5)]
  norm_num
  rw [sqrt_nine, sqrt_twentyfive]
  norm_num
  rw [(min_by_key_pair_cases _ _ _).1 ?hcmp]
  case hcmp =>
    rw [distance_to_eval, distance_to_eval]
    exact Real.sqrt_lt_sqrt (by positivity) (by norm_num)

/-- Exit point from the source at chord `√(13/5)`. -/
lemma exit_S_c2 :
    (Circle.mk ((0 : ℝ), (0 : ℝ)) 1).calculate_exit_point ((-2 : ℝ), (0 : ℝ))
      (Real.sqrt (13 / 5)) ((0 : ℝ), (2 : ℝ)) = ((-3 / 5 : ℝ), (4 / 5 : ℝ)) := by
  unfold Circle.calculate_exit_point
  simp only [center_mk, radius_mk]
  rw [if_neg (by intro hle; nlinarith [sqrt135_lt_two])]
  unfold calculate_points_in_distance_on_circle
  dsimp only
  rw [dist_S_center, Real.sq_sqrt (by norm_num : (0 : ℝ) ≤ 13 / 5)]
  norm_num
  rw [sqrt_sixteen, sqrt_twentyfive]
  norm_num
  rw [(min_by_key_pair_cases _ _ _).2 ?hcmp]
  case hcmp =>
    rw [distance_to_eval, distance_to_eval]
    exact not_lt.mpr (Real.sqrt_le_sqrt (by norm_num))

/-- Exit point from the target at chord `√(13/5)`. -/
lemma exit_T_c2 :
    (Circle.mk ((0 : ℝ), (0 : ℝ)) 1).calculate_exit_point ((0 : ℝ), (2 : ℝ))
      (Real.sqrt (13 / 5)) ((-2 : ℝ), (0 : ℝ)) = ((-4 / 5 : ℝ), (3 / 5 : ℝ)) := by
  unfold Circle.calculate_exit_point
  simp only [center_mk, radius_mk]
  rw [if_neg (by intro hle; nlinarith [sqrt135_lt_two])]
  unfold calculate_points_in_distance_on_circle
  dsimp only
  rw [dist_T_center, Real.sq_sqrt (by norm_num : (0 : ℝ) ≤ 13 / 5)]
  norm_num
  rw [sqrt_sixteen, sqrt_twentyfive]
  norm_num
  rw [(min_by_key_pair_cases _ _ _).1 ?hcmp]
  case hcmp =>
    rw [distance_to_eval, distance_to_eval]
    exact Real.sqrt_lt_sqrt (by positivity) (by norm_num)

/-! ### Segment/disk intersection lengths for the counterexample paths -/

/-- The segment from `(-2,0)` to `(-1,0)` touches the unit disk only at its endpoint. -/
lemma seg_zero_S_near :
    (Circle.mk ((0 : ℝ), (0 : ℝ)) 1).segment_intersection_length
      ((-2 : ℝ), (0 : ℝ)) ((-1 : ℝ), (0 : ℝ)) = 0 := by
  unfold Circle.segment_intersection_length
  have hset : {t : ℝ | t ∈ Icc (0 : ℝ) 1 ∧
      distance_to (lerp t ((-2 : ℝ), (0 : ℝ)) ((-1 : ℝ), (0 : ℝ)))
        (Circle.mk ((0 : ℝ), (0 : ℝ)) 1).center ≤ (Circle.mk ((0 : ℝ), (0 : ℝ)) 1).radius}
      = {(1 : ℝ)} := by
    ext t
    simp only [mem_setOf_eq, mem_Icc, mem_singleton_iff]
    unfold lerp
    dsimp only
    rw [distance_to_eval, Real.sqrt_le_left (by norm_num : (0 : ℝ) ≤ 1)]
    constructor
    · rintro ⟨⟨h0, h1⟩, hq⟩
      have hge : 1 ≤ t := by
        by_contra hlt
        push_neg at hlt
        nlinarith [mul_pos (show (0 : ℝ) < 1 - t by linarith)
          (show (0 : ℝ) < 3 - t by linarith)]
      linarith
    · rintro rfl
      norm_num
  rw [hset, measure_singleton, ENNReal.zero_toReal, zero_mul]

/-- The segment from `(0,1)` to `(0,2)` touches the unit disk only at its endpoint. -/
lemma seg_zero_T_near :
    (Circle.mk ((0 : ℝ), (0 : ℝ)) 1).segment_intersection_length
      ((0 : ℝ), (1 : ℝ)) ((0 : ℝ), (2 : ℝ)) = 0 := by
  unfold Circle.segment_intersection_length
  have hset : {t : ℝ | t ∈ Icc (0 : ℝ) 1 ∧
      distance_to (lerp t ((0 : ℝ), (1 : ℝ)) ((0 : ℝ), (2 : ℝ)))
        (Circle.mk ((0 : ℝ), (0 : ℝ)) 1).center ≤ (Circle.mk ((0 : ℝ), (0 : ℝ)) 1).radius}
      = {(0 : ℝ)} := by
    ext t
    simp only [mem_setOf_eq, mem_Icc, mem_singleton_iff]
    unfold lerp
    dsimp only
    rw [distance_to_eval, Real.sqrt_le_left (by norm_num : (0 : ℝ) ≤ 1)]
    constructor
    · rintro ⟨⟨h0, h1⟩, hq⟩
      have hle : t ≤ 0 := by nlinarith [sq_nonneg t]
      linarith
    · rintro rfl
      norm_num
  rw [hset, measure_singleton, ENNReal.zero_toReal, zero_mul]

/-- The chord from `(-1,0)` to `(0,1)` lies entirely in the unit disk. -/
lemma seg_full_c0 :
    (Circle.mk ((0 : ℝ), (0 : ℝ)) 1).segment_intersection_length
      ((-1 : ℝ), (0 : ℝ)) ((0 : ℝ), (1 : ℝ))
      = distance_to ((-1 : ℝ), (0 : ℝ)) ((0 : ℝ), (1 : ℝ)) := by
  unfold Circle.segment_intersection_length
  have hset : {t : ℝ | t ∈ Icc (0 : ℝ) 1 ∧
      distance_to (lerp t ((-1 : ℝ), (0 : ℝ)) ((0 : ℝ), (1 : ℝ)))
        (Circle.mk ((0 : ℝ), (0 : ℝ)) 1).center ≤ (Circle.mk ((0 : ℝ), (0 : ℝ)) 1).radius}
      = Icc (0 : ℝ) 1 := by
    ext t
    simp only [mem_setOf_eq, mem_Icc]
    unfold lerp
    dsimp only
    rw [distance_to_eval, Real.sqrt_le_left (by norm_num : (0 : ℝ) ≤ 1)]
    constructor
    · rintro ⟨⟨h0, h1⟩, _⟩
      exact ⟨h0, h1⟩
    · rintro ⟨h0, h1⟩
      refine ⟨⟨h0, h1⟩, ?_⟩
      nlinarith [mul_nonneg h0 (sub_nonneg.mpr h1)]
  rw [hset, Real.volume_Icc, show (1 : ℝ) - 0 = 1 by norm_num,
    ENNReal.toReal_ofReal (by norm_num : (0 : ℝ) ≤ 1), one_mul]

/-- The segment from `(-2,0)` to `(-4/5, 3/5)` touches the unit disk only at its
endpoint. -/
lemma seg_zero_S_c1 :
    (Circle.mk ((0 : ℝ), (0 : ℝ)) 1).segment_intersection_length
      ((-2 : ℝ), (0 : ℝ)) ((-4 / 5 : ℝ), (3 / 5 : ℝ)) = 0 := by
  unfold Circle.segment_intersection_length
  have hset : {t : ℝ | t ∈ Icc (0 : ℝ) 1 ∧
      distance_to (lerp t ((-2 : ℝ), (0 : ℝ)) ((-4 / 5 : ℝ), (3 / 5 : ℝ)))
        (Circle.mk ((0 : ℝ), (0 : ℝ)) 1).center ≤ (Circle.mk ((0 : ℝ), (0 : ℝ)) 1).radius}
      = {(1 : ℝ)} := by
    ext t
    simp only [mem_setOf_eq, mem_Icc, mem_singleton_iff]
    unfold lerp
    dsimp only
    rw [distance_to_eval, Real.sqrt_le_left (by norm_num : (0 : ℝ) ≤ 1)]
    constructor
    · rintro ⟨⟨h0, h1⟩, hq⟩
      have hge : 1 ≤ t := by
        by_contra hlt
        push_neg at hlt
        nlinarith [mul_pos (show (0 : ℝ) < 1 - t by linarith)
          (show (0 : ℝ) < 5 - 3 * t by linarith)]
      linarith
    · rintro rfl
      norm_num
  rw [hset, measure_singleton, ENNReal.zero_toReal, zero_mul]

/-- The segment from `(-3/5, 4/5)` to `(0,2)` touches the unit disk only at its
endpoint. -/
lemma seg_zero_T_c1 :
    (Circle.mk ((0 : ℝ), (0 : ℝ)) 1).segment_intersection_length
      ((-3 / 5 : ℝ), (4 / 5 : ℝ)) ((0 : ℝ), (2 : ℝ)) = 0 := by
  unfold Circle.segment_intersection_length
  have hset : {t : ℝ | t ∈ Icc (0 : ℝ) 1 ∧
      distance_to (lerp t ((-3 / 5 : ℝ), (4 / 5 : ℝ)) ((0 : ℝ), (2 : ℝ)))
        (Circle.mk ((0 : ℝ), (0 : ℝ)) 1).center ≤ (Circle.mk ((0 : ℝ), (0 : ℝ)) 1).radius}
      = {(0 : ℝ)} := by
    ext t
    simp only [mem_setOf_eq, mem_Icc, mem_singleton_iff]
    unfold lerp
    dsimp only
    rw [distance_to_eval, Real.sqrt_le_left (by norm_num : (0 : ℝ) ≤ 1)]
    constructor
    · rintro ⟨⟨h0, h1⟩, hq⟩
      have hle : t ≤ 0 := by nlinarith [sq_nonneg t]
      linarith
    · rintro rfl
      norm_num
  rw [hset, measure_singleton, ENNReal.zero_toReal, zero_mul]

/-- The chord from `(-4/5, 3/5)` to `(-3/5, 4/5)` lies entirely in the unit disk. -/
lemma seg_full_c1 :
    (Circle.mk ((0 : ℝ), (0 : ℝ)) 1).segment_intersection_length
      ((-4 / 5 : ℝ), (3 / 5 : ℝ)) ((-3 / 5 : ℝ), (4 / 5 : ℝ))
      = distance_to ((-4 / 5 : ℝ), (3 / 5 : ℝ)) ((-3 / 5 : ℝ), (4 / 5 : ℝ)) := by
  unfold Circle.segment_intersection_length
  have hset : {t : ℝ | t ∈ Icc (0 : ℝ) 1 ∧
      distance_to (lerp t ((-4 / 5 : ℝ), (3 / 5 : ℝ)) ((-3 / 5 : ℝ), (4 / 5 : ℝ)))
        (Circle.mk ((0 : ℝ), (0 : ℝ)) 1).center ≤ (Circle.mk ((0 : ℝ), (0 : ℝ)) 1).radius}
      = Icc (0 : ℝ) 1 := by
    ext t
    simp only [mem_setOf_eq, mem_Icc]
    unfold lerp
    dsimp only
    rw [distance_to_eval, Real.sqrt_le_left (by norm_num : (0 : ℝ) ≤ 1)]
    constructor
    · rintro ⟨⟨h0, h1⟩, _⟩
      exact ⟨h0, h1⟩
    · rintro ⟨h0, h1⟩
      refine ⟨⟨h0, h1⟩, ?_⟩
      nlinarith [mul_nonneg h0 (sub_nonneg.mpr h1)]
  rw [hset, Real.volume_Icc, show (1 : ℝ) - 0 = 1 by norm_num,
    ENNReal.toReal_ofReal (by norm_num : (0 : ℝ) ≤ 1), one_mul]

/-! ### Path-level evaluations and the C3 theorems -/

/-- The budget path at chord 1. -/
lemma budget_path_c0 :
    budget_path (Circle.mk ((0 : ℝ), (0 : ℝ)) 1) ((-2 : ℝ), (0 : ℝ)) ((0 : ℝ), (2 : ℝ)) 1
      = [((-2 : ℝ), (0 : ℝ)), ((-1 : ℝ), (0 : ℝ)), ((0 : ℝ), (1 : ℝ)), ((0 : ℝ), (2 : ℝ))] := by
  unfold budget_path
  rw [exit_S_c0, exit_T_c0]

/-- The budget path at chord `√(9/5)`. -/
lemma budget_path_c1 :
    budget_path (Circle.mk ((0 : ℝ), (0 : ℝ)) 1) ((-2 : ℝ), (0 : ℝ)) ((0 : ℝ), (2 : ℝ))
        (Real.sqrt (9 / 5))
      = [((-2 : ℝ), (0 : ℝ)), ((-4 / 5 : ℝ), (3 / 5 : ℝ)), ((-3 / 5 : ℝ), (4 / 5 : ℝ)),
        ((0 : ℝ), (2 : ℝ))] := by
  unfold budget_path
  rw [exit_S_c1, exit_T_c1]

/-- The budget path at chord `√(13/5)`. -/
lemma budget_path_c2 :
    budget_path (Circle.mk ((0 : ℝ), (0 : ℝ)) 1) ((-2 : ℝ), (0 : ℝ)) ((0 : ℝ), (2 : ℝ))
        (Real.sqrt (13 / 5))
      = [((-2 : ℝ), (0 : ℝ)), ((-3 / 5 : ℝ), (4 / 5 : ℝ)), ((-4 / 5 : ℝ), (3 / 5 : ℝ)),
        ((0 : ℝ), (2 : ℝ))] := by
  unfold budget_path
  rw [exit_S_c2, exit_T_c2]

/-- Risk of the chord-1 path: the full chord from `(-1,0)` to `(0,1)`. -/
lemma risk_c0_eval :
    (Circle.mk ((0 : ℝ), (0 : ℝ)) 1).path_intersection_length
      [((-2 : ℝ), (0 : ℝ)), ((-1 : ℝ), (0 : ℝ)), ((0 : ℝ), (1 : ℝ)), ((0 : ℝ), (2 : ℝ))]
      = distance_to ((-1 : ℝ), (0 : ℝ)) ((0 : ℝ), (1 : ℝ)) := by
  unfold Circle.path_intersection_length path_pairs
  simp only [List.tail_cons, List.zip_cons_cons, List.zip_nil_right, List.map_cons,
    List.map_nil, List.sum_cons, List.sum_nil]
  rw [seg_zero_S_near, seg_full_c0, seg_zero_T_near]
  ring

/-- Risk of the chord-`√(9/5)` path: only the short top chord. -/
lemma risk_c1_eval :
    (Circle.mk ((0 : ℝ), (0 : ℝ)) 1).path_intersection_length
      [((-2 : ℝ), (0 : ℝ)), ((-4 / 5 : ℝ), (3 / 5 : ℝ)), ((-3 / 5 : ℝ), (4 / 5 : ℝ)),
        ((0 : ℝ), (2 : ℝ))]
      = distance_to ((-4 / 5 : ℝ), (3 / 5 : ℝ)) ((-3 / 5 : ℝ), (4 / 5 : ℝ)) := by
  unfold Circle.path_intersection_length path_pairs
  simp only [List.tail_cons, List.zip_cons_cons, List.zip_nil_right, List.map_cons,
    List.map_nil, List.sum_cons, List.sum_nil]
  rw [seg_zero_S_c1, seg_full_c1, seg_zero_T_c1]
  ring

/-- C3 counterexample: for the unit threat about the origin, `source = (-2,0)` and
`target = (0,2)` (both outside), the chords `1 < √(9/5) < √(13/5) ≤ 2·radius` give:
the risk strictly decreases from chord 1 to chord `√(9/5)` (refuting "increasing `c`
monotonically increases risk"), and the length strictly increases from chord `√(9/5)`
to chord `√(13/5)` (refuting "increasing `c` monotonically decreases length"). -/
theorem C3_monotonicity_counterexample :
    ¬ (Circle.mk ((0 : ℝ), (0 : ℝ)) 1).contains ((-2 : ℝ), (0 : ℝ)) ∧
    ¬ (Circle.mk ((0 : ℝ), (0 : ℝ)) 1).contains ((0 : ℝ), (2 : ℝ)) ∧
    (0 : ℝ) < 1 ∧ (1 : ℝ) < Real.sqrt (9 / 5) ∧
    Real.sqrt (9 / 5) < Real.sqrt (13 / 5) ∧
    Real.sqrt (13 / 5) ≤ 2 * (Circle.mk ((0 : ℝ), (0 : ℝ)) 1).radius ∧
    (Circle.mk ((0 : ℝ), (0 : ℝ)) 1).path_intersection_length
        (budget_path (Circle.mk ((0 : ℝ), (0 : ℝ)) 1) ((-2 : ℝ), (0 : ℝ)) ((0 : ℝ), (2 : ℝ))
          (Real.sqrt (9 / 5)))
      < (Circle.mk ((0 : ℝ), (0 : ℝ)) 1).path_intersection_length
        (budget_path (Circle.mk ((0 : ℝ), (0 : ℝ)) 1) ((-2 : ℝ), (0 : ℝ)) ((0 : ℝ), (2 : ℝ)) 1) ∧
    compute_path_length
        (budget_path (Circle.mk ((0 : ℝ), (0 : ℝ)) 1) ((-2 : ℝ), (0 : ℝ)) ((0 : ℝ), (2 : ℝ))
          (Real.sqrt (9 / 5)))
      < compute_path_length
        (budget_path (Circle.mk ((0 : ℝ), (0 : ℝ)) 1) ((-2 : ℝ), (0 : ℝ)) ((0 : ℝ), (2 : ℝ))
          (Real.sqrt (13 / 5))) := by
  refine ⟨?_, ?_, by norm_num, ?_, ?_, ?_, ?_, ?_⟩
  · show ¬ (distance_to ((-2 : ℝ), (0 : ℝ)) (Circle.mk ((0 : ℝ), (0 : ℝ)) 1).center
      ≤ (Circle.mk ((0 : ℝ), (0 : ℝ)) 1).radius)
    rw [center_mk, radius_mk, dist_S_center]
    norm_num
  · show ¬ (distance_to ((0 : ℝ), (2 : ℝ)) (Circle.mk ((0 : ℝ), (0 : ℝ)) 1).center
      ≤ (Circle.mk ((0 : ℝ), (0 : ℝ)) 1).radius)
    rw [center_mk, radius_mk, dist_T_center]
    norm_num
  · rw [show (1 : ℝ) = Real.sqrt 1 from Real.sqrt_one.symm]
    exact Real.sqrt_lt_sqrt (by norm_num) (by norm_num)
  · exact Real.sqrt_lt_sqrt (by norm_num) (by norm_num)
  · rw [radius_mk]
    linarith [sqrt135_lt_two]
  · rw [budget_path_c0, budget_path_c1, risk_c0_eval, risk_c1_eval]
    rw [distance_to_eval, distance_to_eval]
    exact Real.sqrt_lt_sqrt (by positivity) (by norm_num)
  · rw [budget_path_c1, budget_path_c2]
    unfold compute_path_length path_pairs
    simp only [List.tail_cons, List.zip_cons_cons, List.zip_nil_right, List.map_cons,
      List.map_nil, List.sum_cons, List.sum_nil]
    have h1 : distance_to ((-2 : ℝ), (0 : ℝ)) ((-4 / 5 : ℝ), (3 / 5 : ℝ))
        < distance_to ((-2 : ℝ), (0 : ℝ)) ((-3 / 5 : ℝ), (4 / 5 : ℝ)) := by
      rw [distance_to_eval, distance_to_eval]
      exact Real.sqrt_lt_sqrt (by positivity) (by norm_num)
    have h2 : distance_to ((-4 / 5 : ℝ), (3 / 5 : ℝ)) ((-3 / 5 : ℝ), (4 / 5 : ℝ))
        = distance_to ((-3 / 5 : ℝ), (4 / 5 : ℝ)) ((-4 / 5 : ℝ), (3 / 5 : ℝ)) :=
      distance_to_comm _ _
    have h3 : distance_to ((-3 / 5 : ℝ), (4 / 5 : ℝ)) ((0 : ℝ), (2 : ℝ))
        < distance_to ((-4 / 5 : ℝ), (3 / 5 : ℝ)) ((0 : ℝ), (2 : ℝ)) := by
      rw [distance_to_eval, distance_to_eval]
      exact Real.sqrt_lt_sqrt (by positivity) (by norm_num)
    linarith

/-- C3 amended: the claimed monotonicity fails in general — there is a configuration
with source and target outside the threat and chords within `(0, 2·radius]` on which
the risk of the budget path strictly decreases while its length strictly increases as
the chord parameter grows. -/
theorem C3_monotonicity_amended :
    ∃ (c : Circle) (source target : Coord) (c1 c2 c3 : ℝ),
      ¬ c.contains source ∧ ¬ c.contains target ∧
      0 < c1 ∧ c1 < c2 ∧ c2 < c3 ∧ c3 ≤ 2 * c.radius ∧
      c.path_intersection_length (budget_path c source target c2)
        < c.path_intersection_length (budget_path c source target c1) ∧
      compute_path_length (budget_path c source target c2)
        < compute_path_length (budget_path c source target c3) := by
  refine ⟨Circle.mk ((0 : ℝ), (0 : ℝ)) 1, ((-2 : ℝ), (0 : ℝ)), ((0 : ℝ), (2 : ℝ)),
    1, Real.sqrt (9 / 5), Real.sqrt (13 / 5), ?_, ?_, by norm_num, ?_, ?_, ?_, ?_, ?_⟩
  · show ¬ (distance_to ((-2 : ℝ), (0 : ℝ)) (Circle.mk ((0 : ℝ), (0 : ℝ)) 1).center
      ≤ (Circle.mk ((0 : ℝ), (0 : ℝ)) 1).radius)
    rw [center_mk, radius_mk, dist_S_center]
    norm_num
  · show ¬ (distance_to ((0 : ℝ), (2 : ℝ)) (Circle.mk ((0 : ℝ), (0 : ℝ)) 1).center
      ≤ (Circle.mk ((0 : ℝ), (0 : ℝ)) 1).radius)
    rw [center_mk, radius_mk, dist_T_center]
    norm_num
  · rw [show (1 : ℝ) = Real.sqrt 1 from Real.sqrt_one.symm]
    exact Real.sqrt_lt_sqrt (by norm_num) (by norm_num)
  · exact Real.sqrt_lt_sqrt (by norm_num) (by norm_num)
  · rw [radius_mk]
    linarith [sqrt135_lt_two]
  · rw [budget_path_c0, budget_path_c1, risk_c0_eval, risk_c1_eval]
    rw [distance_to_eval, distance_to_eval]
    exact Real.sqrt_lt_sqrt (by positivity) (by norm_num)
  · rw [budget_path_c1, budget_path_c2]
    unfold compute_path_length path_pairs
    simp only [List.tail_cons, List.zip_cons_cons, List.zip_nil_right, List.map_cons,
      List.map_nil, List.sum_cons, List.sum_nil]
    have h1 : distance_to ((-2 : ℝ), (0 : ℝ)) ((-4 / 5 : ℝ), (3 / 5 : ℝ))
        < distance_to ((-2 : ℝ), (0 : ℝ)) ((-3 / 5 : ℝ), (4 / 5 : ℝ)) := by
      rw [distance_to_eval, distance_to_eval]
      exact Real.sqrt_lt_sqrt (by positivity) (by norm_num)
    have h2 : distance_to ((-4 / 5 : ℝ), (3 / 5 : ℝ)) ((-3 / 5 : ℝ), (4 / 5 : ℝ))
        = distance_to ((-3 / 5 : ℝ), (4 / 5 : ℝ)) ((-4 / 5 : ℝ), (3 / 5 : ℝ)) :=
      distance_to_comm _ _
    have h3 : distance_to ((-3 / 5 : ℝ), (4 / 5 : ℝ)) ((0 : ℝ), (2 : ℝ))
        < distance_to ((-4 / 5 : ℝ), (3 / 5 : ℝ)) ((0 : ℝ), (2 : ℝ)) := by
      rw [distance_to_eval, distance_to_eval]
      exact Real.sqrt_lt_sqrt (by positivity) (by norm_num)
    linarith

/-! ### Helper lemmas for the partition construction (C7, C8) -/

/-- Normalization of the literal `0.5 · π`. -/
lemma half_pi_eq : (0.5 : ℝ) * Real.pi = Real.pi / 2 := by
  norm_num
  ring

/-- Interpolation at 0 is the first endpoint. -/
lemma lerp_zero (A B : Coord) : lerp 0 A B = A := by
  unfold lerp
  simp

/-- Interpolation at 1 is the second endpoint. -/
lemma lerp_one (A B : Coord) : lerp 1 A B = B := by
  unfold lerp
  rw [Prod.ext_iff]
  constructor <;> (dsimp; ring)

/-- Interpolation is the standard convex combination. -/
lemma lerp_eq_smul (t : ℝ) (A B : Coord) : lerp t A B = (1 - t) • A + t • B := by
  unfold lerp
  rw [Prod.ext_iff]
  constructor <;>
    simp only [Prod.fst_add, Prod.snd_add, Prod.smul_fst, Prod.smul_snd, smul_eq_mul] <;> ring

/-- Interpolation along distinct endpoints is injective in the parameter. -/
lemma lerp_inj (A B : Coord) (hAB : A ≠ B) {u v : ℝ} (h : lerp u A B = lerp v A B) : u = v := by
  have h1 : (lerp u A B).1 = (lerp v A B).1 := by rw [h]
  have h2 : (lerp u A B).2 = (lerp v A B).2 := by rw [h]
  unfold lerp at h1 h2
  dsimp at h1 h2
  by_contra huv
  have hu : (u - v) * (B.1 - A.1) = 0 := by linear_combination h1
  have hv : (u - v) * (B.2 - A.2) = 0 := by linear_combination h2
  have hne : u - v ≠ 0 := sub_ne_zero.mpr huv
  have hx : B.1 - A.1 = 0 := by
    rcases mul_eq_zero.mp hu with hc | hc
    · exact absurd hc hne
    · exact hc
  have hy : B.2 - A.2 = 0 := by
    rcases mul_eq_zero.mp hv with hc | hc
    · exact absurd hc hne
    · exact hc
  exact hAB (Prod.ext_iff.mpr ⟨by linarith, by linarith⟩)

/-- Membership in a segment is interpolation at a parameter in `[0, 1]`. -/
lemma mem_segment_iff_lerp (A B p : Coord) :
    p ∈ segment ℝ A B ↔ ∃ u : ℝ, u ∈ Icc (0 : ℝ) 1 ∧ lerp u A B = p := by
  rw [segment_eq_image]
  constructor
  · rintro ⟨u, hu, hp⟩
    exact ⟨u, hu, by rw [lerp_eq_smul]; exact hp⟩
  · rintro ⟨u, hu, hp⟩
    exact ⟨u, hu, by dsimp only; rw [← lerp_eq_smul]; exact hp⟩

/-- The two endpoints of the auxiliary perpendicular segment are distinct. -/
lemma partition_inf_ne (c1 c2 : Circle) : partition_inf_a c1 c2 ≠ partition_inf_b c1 c2 := by
  intro he
  have h1 : (partition_inf_a c1 c2).1 = (partition_inf_b c1 c2).1 := by rw [he]
  have h2 : (partition_inf_a c1 c2).2 = (partition_inf_b c1 c2).2 := by rw [he]
  unfold partition_inf_a partition_inf_b shifted at h1 h2
  dsimp at h1 h2
  rw [half_pi_eq, Real.cos_add_pi_div_two, Real.cos_sub_pi_div_two] at h1
  rw [half_pi_eq, Real.sin_add_pi_div_two, Real.sin_sub_pi_div_two] at h2
  unfold INF at h1 h2
  have hs : Real.sin ((Segment.mk c1.center c2.center).angle) = 0 := by linarith
  have hc : Real.cos ((Segment.mk c1.center c2.center).angle) = 0 := by linarith
  nlinarith [Real.sin_sq_add_cos_sq ((Segment.mk c1.center c2.center).angle)]

/-- The hull-generating point set is finite. -/
lemma partition_hull_points_finite (s t : Coord) (cs : List Circle) :
    (partition_hull_points s t cs).Finite := by
  have hsub : partition_hull_points s t cs ⊆
      {s} ∪ ({t} ∪ ⋃ c ∈ {c | c ∈ cs}, {p | p ∈ c.inner_boundary}) := by
    intro p hp
    rcases hp with hp | hp | ⟨c, hc, hp⟩
    · exact Or.inl hp
    · exact Or.inr (Or.inl hp)
    · exact Or.inr (Or.inr (mem_biUnion hc hp))
  exact Set.Finite.subset
    ((Set.finite_singleton s).union ((Set.finite_singleton t).union
      ((List.finite_toSet cs).biUnion (fun c _ => List.finite_toSet c.inner_boundary))))
    hsub

/-- The truncating convex hull is a closed set. -/
lemma partition_hull_closed (s t : Coord) (cs : List Circle) :
    IsClosed (partition_hull s t cs) :=
  (partition_hull_points_finite s t cs).isCompact_convexHull.isClosed

/-- Interpolation is continuous in the parameter. -/
lemma lerp_continuous (A B : Coord) : Continuous (fun u : ℝ => lerp u A B) := by
  unfold lerp
  exact (continuous_const.add (continuous_id.mul continuous_const)).prod_mk
    (continuous_const.add (continuous_id.mul continuous_const))

/-- The hull-parameter set along the auxiliary segment is closed. -/
lemma partition_params_closed (c1 c2 : Circle) (s t : Coord) (cs : List Circle) :
    IsClosed (partition_params c1 c2 s t cs) := by
  have heq : partition_params c1 c2 s t cs = Icc (0 : ℝ) 1 ∩
      Set.preimage (fun u : ℝ => lerp u (partition_inf_a c1 c2) (partition_inf_b c1 c2))
        (partition_hull s t cs) := rfl
  rw [heq]
  exact isClosed_Icc.inter
    ((partition_hull_closed s t cs).preimage (lerp_continuous _ _))

/-- The hull-parameter set is bounded below. -/
lemma partition_params_bddBelow (c1 c2 : Circle) (s t : Coord) (cs : List Circle) :
    BddBelow (partition_params c1 c2 s t cs) :=
  ⟨0, fun _ hu => hu.1.1⟩

/-- The hull-parameter set is bounded above. -/
lemma partition_params_bddAbove (c1 c2 : Circle) (s t : Coord) (cs : List Circle) :
    BddAbove (partition_params c1 c2 s t cs) :=
  ⟨1, fun _ hu => hu.1.2⟩

/-- Distinct parameters in the hull-parameter set force a nondegenerate interval. -/
lemma params_inf_lt_sup (c1 c2 : Circle) (s t : Coord) (cs : List Circle) (u v : ℝ)
    (hu : u ∈ partition_params c1 c2 s t cs) (hv : v ∈ partition_params c1 c2 s t cs)
    (huv : u ≠ v) :
    sInf (partition_params c1 c2 s t cs) < sSup (partition_params c1 c2 s t cs) := by
  rcases lt_or_gt_of_ne huv with h | h
  · exact lt_of_le_of_lt (csInf_le (partition_params_bddBelow c1 c2 s t cs) hu)
      (lt_of_lt_of_le h (le_csSup (partition_params_bddAbove c1 c2 s t cs) hv))
  · exact lt_of_le_of_lt (csInf_le (partition_params_bddBelow c1 c2 s t cs) hv)
      (lt_of_lt_of_le h (le_csSup (partition_params_bddAbove c1 c2 s t cs) hu))

/-! ### Claim theorem: C8 -/

/-- C8 amended: the partition construction fails (no two intersection coordinates)
exactly when the truncated auxiliary perpendicular segment — not the unbounded
perpendicular line — does not meet the convex hull in two distinct points. -/
theorem C8_partition_failure_amended (c1 c2 : Circle) (s t : Coord) (cs : List Circle) :
    calculate_partition_between_circles c1 c2 s t cs = none ↔
    ¬ ∃ p q : Coord, p ≠ q ∧
      p ∈ segment ℝ (partition_inf_a c1 c2) (partition_inf_b c1 c2) ∧
      q ∈ segment ℝ (partition_inf_a c1 c2) (partition_inf_b c1 c2) ∧
      p ∈ partition_hull s t cs ∧ q ∈ partition_hull s t cs := by
  unfold calculate_partition_between_circles
  dsimp only
  split
  · rename_i h
    constructor
    · intro habs
      exact absurd habs (Option.some_ne_none _)
    · intro hN
      exfalso
      apply hN
      have hT : (partition_params c1 c2 s t cs).Nonempty := by
        by_contra hne
        rw [Set.not_nonempty_iff_eq_empty] at hne
        rw [hne, Real.sInf_empty, Real.sSup_empty] at h
        exact lt_irrefl 0 h
      have h0 := (partition_params_closed c1 c2 s t cs).csInf_mem hT
        (partition_params_bddBelow c1 c2 s t cs)
      have h1 := (partition_params_closed c1 c2 s t cs).csSup_mem hT
        (partition_params_bddAbove c1 c2 s t cs)
      refine ⟨lerp (sInf (partition_params c1 c2 s t cs))
          (partition_inf_a c1 c2) (partition_inf_b c1 c2),
        lerp (sSup (partition_params c1 c2 s t cs))
          (partition_inf_a c1 c2) (partition_inf_b c1 c2), ?_, ?_, ?_, ?_, ?_⟩
      · intro heq
        exact absurd (lerp_inj _ _ (partition_inf_ne c1 c2) heq) (ne_of_lt h)
      · exact (mem_segment_iff_lerp _ _ _).mpr ⟨_, h0.1, rfl⟩
      · exact (mem_segment_iff_lerp _ _ _).mpr ⟨_, h1.1, rfl⟩
      · exact h0.2
      · exact h1.2
  · rename_i h
    constructor
    · intro _
      rintro ⟨p, q, hpq, hpseg, hqseg, hphull, hqhull⟩
      obtain ⟨u, hu, hup⟩ := (mem_segment_iff_lerp _ _ _).mp hpseg
      obtain ⟨v, hv, hvq⟩ := (mem_segment_iff_lerp _ _ _).mp hqseg
      have huT : u ∈ partition_params c1 c2 s t cs := ⟨hu, by rw [hup]; exact hphull⟩
      have hvT : v ∈ partition_params c1 c2 s t cs := ⟨hv, by rw [hvq]; exact hqhull⟩
      have huv : u ≠ v := by
        intro he
        apply hpq
        rw [← hup, ← hvq, he]
      exact h (params_inf_lt_sup c1 c2 s t cs u v huT hvT huv)
    · intro _
      rfl

/-! ### Concrete partition configuration for the C8/C7 counterexamples -/

/-- The auxiliary segment endpoint `A` for the circles about `(0,0)` and `(2,0)`. -/
lemma partition_ex_inf_a :
    partition_inf_a (Circle.mk ((0 : ℝ), (0 : ℝ)) 1) (Circle.mk ((2 : ℝ), (0 : ℝ)) 1)
      = ((1 : ℝ), (1000 : ℝ)) := by
  have hang : (Segment.mk (Circle.mk ((0 : ℝ), (0 : ℝ)) 1).center
      (Circle.mk ((2 : ℝ), (0 : ℝ)) 1).center).angle = 0 := by
    show segment_angle ((0 : ℝ), (0 : ℝ)) ((2 : ℝ), (0 : ℝ)) = 0
    unfold segment_angle
    have h1 : (⟨(2 : ℝ) - 0, (0 : ℝ) - 0⟩ : ℂ) = ((2 : ℝ) : ℂ) := by
      apply Complex.ext <;> simp
    rw [h1, Complex.arg_ofReal_of_nonneg (by norm_num)]
  have hlen : (Segment.mk (Circle.mk ((0 : ℝ), (0 : ℝ)) 1).center
      (Circle.mk ((2 : ℝ), (0 : ℝ)) 1).center).length = 2 := by
    show distance_to ((0 : ℝ), (0 : ℝ)) ((2 : ℝ), (0 : ℝ)) = 2
    rw [distance_to_eval, show ((0 : ℝ) - 2) ^ 2 + ((0 : ℝ) - 0) ^ 2 = 4 by norm_num]
    exact sqrt_four
  unfold partition_inf_a partition_pivot
  rw [hang, hlen]
  simp only [center_mk, radius_mk]
  unfold shifted INF
  rw [half_pi_eq]
  norm_num [Real.cos_pi_div_two, Real.sin_pi_div_two, Real.cos_zero, Real.sin_zero]

/-- The auxiliary segment endpoint `B` for the circles about `(0,0)` and `(2,0)`. -/
lemma partition_ex_inf_b :
    partition_inf_b (Circle.mk ((0 : ℝ), (0 : ℝ)) 1) (Circle.mk ((2 : ℝ), (0 : ℝ)) 1)
      = ((1 : ℝ), (-1000 : ℝ)) := by
  have hang : (Segment.mk (Circle.mk ((0 : ℝ), (0 : ℝ)) 1).center
      (Circle.mk ((2 : ℝ), (0 : ℝ)) 1).center).angle = 0 := by
    show segment_angle ((0 : ℝ), (0 : ℝ)) ((2 : ℝ), (0 : ℝ)) = 0
    unfold segment_angle
    have h1 : (⟨(2 : ℝ) - 0, (0 : ℝ) - 0⟩ : ℂ) = ((2 : ℝ) : ℂ) := by
      apply Complex.ext <;> simp
    rw [h1, Complex.arg_ofReal_of_nonneg (by norm_num)]
  have hlen : (Segment.mk (Circle.mk ((0 : ℝ), (0 : ℝ)) 1).center
      (Circle.mk ((2 : ℝ), (0 : ℝ)) 1).center).length = 2 := by
    show distance_to ((0 : ℝ), (0 : ℝ)) ((2 : ℝ), (0 : ℝ)) = 2
    rw [distance_to_eval, show ((0 : ℝ) - 2) ^ 2 + ((0 : ℝ) - 0) ^ 2 = 4 by norm_num]
    exact sqrt_four
  unfold partition_inf_b partition_pivot
  rw [hang, hlen]
  simp only [center_mk, radius_mk]
  unfold shifted INF
  rw [half_pi_eq]
  norm_num [Real.cos_neg, Real.sin_neg, Real.cos_pi_div_two, Real.sin_pi_div_two,
    Real.cos_zero, Real.sin_zero]

/-- The topmost sampled inner-boundary point of a circle. -/
lemma inner_boundary_mem_top (cx cy r : ℝ) :
    ((cx, cy + r) : Coord) ∈ (Circle.mk (cx, cy) r).inner_boundary := by
  unfold Circle.inner_boundary ring_points
  simp only [center_mk, radius_mk]
  refine List.mem_map.mpr ⟨40, ?_, ?_⟩
  · exact List.mem_range.mpr (by norm_num [BUFFER_RESOLUTION])
  have hθ : 2 * Real.pi * ((40 : ℕ) : ℝ) / (4 * ((BUFFER_RESOLUTION : ℕ) : ℝ))
      = Real.pi / 2 := by
    unfold BUFFER_RESOLUTION
    push_cast
    ring
  rw [hθ]
  unfold shifted
  rw [Real.cos_pi_div_two, Real.sin_pi_div_two]
  norm_num

/-- The bottommost sampled inner-boundary point of a circle. -/
lemma inner_boundary_mem_bottom (cx cy r : ℝ) :
    ((cx, cy - r) : Coord) ∈ (Circle.mk (cx, cy) r).inner_boundary := by
  unfold Circle.inner_boundary ring_points
  simp only [center_mk, radius_mk]
  refine List.mem_map.mpr ⟨120, ?_, ?_⟩
  · exact List.mem_range.mpr (by norm_num [BUFFER_RESOLUTION])
  have hθ : 2 * Real.pi * ((120 : ℕ) : ℝ) / (4 * ((BUFFER_RESOLUTION : ℕ) : ℝ))
      = Real.pi + Real.pi / 2 := by
    unfold BUFFER_RESOLUTION
    push_cast
    ring
  rw [hθ]
  unfold shifted
  rw [Real.cos_add, Real.sin_add, Real.cos_pi, Real.sin_pi, Real.cos_pi_div_two,
    Real.sin_pi_div_two]
  rw [Prod.ext_iff]
  constructor <;> (dsimp; ring)

/-- The far hull (generated around height 5000) lies in the upper halfplane
`y ≥ 4999`. -/
lemma hull_far_lb :
    partition_hull ((0 : ℝ), (5000 : ℝ)) ((2 : ℝ), (5000 : ℝ))
        [Circle.mk ((1 : ℝ), (5000 : ℝ)) 1]
      ⊆ {p : Coord | 4999 ≤ p.2} := by
  unfold partition_hull
  apply convexHull_min
  · intro p hp
    rcases hp with hp | hp | ⟨c, hc, hp⟩
    · rw [hp]
      show (4999 : ℝ) ≤ 5000
      norm_num
    · rw [hp]
      show (4999 : ℝ) ≤ 5000
      norm_num
    · rw [List.mem_singleton] at hc
      subst hc
      unfold Circle.inner_boundary ring_points at hp
      simp only [center_mk, radius_mk, List.mem_map, List.mem_range] at hp
      obtain ⟨k, _, rfl⟩ := hp
      show (4999 : ℝ) ≤ (shifted ((1 : ℝ), (5000 : ℝ)) 1 _).2
      unfold shifted
      dsimp only
      nlinarith [Real.neg_one_le_sin (2 * Real.pi * (k : ℝ) / (4 * (BUFFER_RESOLUTION : ℝ)))]
  · exact convex_halfSpace_ge ⟨fun a b => rfl, fun c a => rfl⟩ 4999

/-- The partition construction fails on the far-hull configuration. -/
lemma partition_far_eval_none :
    calculate_partition_between_circles (Circle.mk ((0 : ℝ), (0 : ℝ)) 1)
      (Circle.mk ((2 : ℝ), (0 : ℝ)) 1) ((0 : ℝ), (5000 : ℝ)) ((2 : ℝ), (5000 : ℝ))
      [Circle.mk ((1 : ℝ), (5000 : ℝ)) 1] = none := by
  have hempty : partition_params (Circle.mk ((0 : ℝ), (0 : ℝ)) 1)
      (Circle.mk ((2 : ℝ), (0 : ℝ)) 1) ((0 : ℝ), (5000 : ℝ)) ((2 : ℝ), (5000 : ℝ))
      [Circle.mk ((1 : ℝ), (5000 : ℝ)) 1] = ∅ := by
    ext u
    simp only [mem_empty_iff_false, iff_false]
    rintro ⟨⟨h0, h1⟩, hhull⟩
    have hlb := hull_far_lb hhull
    rw [partition_ex_inf_a, partition_ex_inf_b] at hlb
    simp only [mem_setOf_eq] at hlb
    unfold lerp at hlb
    dsimp only at hlb
    linarith
  unfold calculate_partition_between_circles
  dsimp only
  rw [hempty, Real.sInf_empty, Real.sSup_empty, if_neg (lt_irrefl 0)]

/-- C8 counterexample: in the far-hull configuration the unbounded perpendicular line
through the pivot meets the convex hull in two distinct points (so the claim's
condition for returning a valid Segment holds), yet the construction fails because
the auxiliary segment is truncated at distance `INF = 1000` from the pivot and never
reaches the hull. -/
theorem C8_partition_failure_counterexample :
    calculate_partition_between_circles (Circle.mk ((0 : ℝ), (0 : ℝ)) 1)
      (Circle.mk ((2 : ℝ), (0 : ℝ)) 1) ((0 : ℝ), (5000 : ℝ)) ((2 : ℝ), (5000 : ℝ))
      [Circle.mk ((1 : ℝ), (5000 : ℝ)) 1] = none ∧
    ((1 : ℝ), (4999 : ℝ)) ≠ ((1 : ℝ), (5001 : ℝ)) ∧
    (∃ μ : ℝ, lerp μ
      (partition_inf_a (Circle.mk ((0 : ℝ), (0 : ℝ)) 1) (Circle.mk ((2 : ℝ), (0 : ℝ)) 1))
      (partition_inf_b (Circle.mk ((0 : ℝ), (0 : ℝ)) 1) (Circle.mk ((2 : ℝ), (0 : ℝ)) 1))
      = ((1 : ℝ), (4999 : ℝ))) ∧
    (∃ ν : ℝ, lerp ν
      (partition_inf_a (Circle.mk ((0 : ℝ), (0 : ℝ)) 1) (Circle.mk ((2 : ℝ), (0 : ℝ)) 1))
      (partition_inf_b (Circle.mk ((0 : ℝ), (0 : ℝ)) 1) (Circle.mk ((2 : ℝ), (0 : ℝ)) 1))
      = ((1 : ℝ), (5001 : ℝ))) ∧
    ((1 : ℝ), (4999 : ℝ)) ∈ partition_hull ((0 : ℝ), (5000 : ℝ)) ((2 : ℝ), (5000 : ℝ))
      [Circle.mk ((1 : ℝ), (5000 : ℝ)) 1] ∧
    ((1 : ℝ), (5001 : ℝ)) ∈ partition_hull ((0 : ℝ), (5000 : ℝ)) ((2 : ℝ), (5000 : ℝ))
      [Circle.mk ((1 : ℝ), (5000 : ℝ)) 1] := by
  refine ⟨partition_far_eval_none, ?_, ?_, ?_, ?_, ?_⟩
  · intro h
    rw [Prod.ext_iff] at h
    norm_num at h
  · refine ⟨-3999 / 2000, ?_⟩
    rw [partition_ex_inf_a, partition_ex_inf_b]
    unfold lerp
    norm_num
  · refine ⟨-4001 / 2000, ?_⟩
    rw [partition_ex_inf_a, partition_ex_inf_b]
    unfold lerp
    norm_num
  · exact subset_convexHull ℝ _ (Or.inr (Or.inr ⟨Circle.mk ((1 : ℝ), (5000 : ℝ)) 1,
      List.mem_singleton_self _,
      by have hm := inner_boundary_mem_bottom 1 5000 1; norm_num at hm; exact hm⟩))
  · exact subset_convexHull ℝ _ (Or.inr (Or.inr ⟨Circle.mk ((1 : ℝ), (5000 : ℝ)) 1,
      List.mem_singleton_self _,
      by have hm := inner_boundary_mem_top 1 5000 1; norm_num at hm; exact hm⟩))

/-! ### Frontier lemmas for the truncated partition endpoints -/

/-- When the first auxiliary endpoint lies outside the closed region, the first
truncation point (at the infimum parameter) lies on the region's frontier. -/
lemma lerp_sInf_mem_frontier (A B : Coord) (H : Set Coord) (hH : IsClosed H) (hA : A ∉ H)
    (hne : {u : ℝ | u ∈ Icc (0 : ℝ) 1 ∧ lerp u A B ∈ H}.Nonempty) :
    lerp (sInf {u : ℝ | u ∈ Icc (0 : ℝ) 1 ∧ lerp u A B ∈ H}) A B ∈ frontier H := by
  set T := {u : ℝ | u ∈ Icc (0 : ℝ) 1 ∧ lerp u A B ∈ H} with hTdef
  have hclosed : IsClosed T := by
    have heq : T = Icc (0 : ℝ) 1 ∩ Set.preimage (fun u : ℝ => lerp u A B) H := rfl
    rw [heq]
    exact isClosed_Icc.inter (hH.preimage (lerp_continuous A B))
  have hbb : BddBelow T := ⟨0, fun x hx => hx.1.1⟩
  have ht0 : sInf T ∈ T := hclosed.csInf_mem hne hbb
  show lerp (sInf T) A B ∈ closure H \ interior H
  refine ⟨subset_closure ht0.2, ?_⟩
  intro hint
  have hopen : IsOpen (Set.preimage (fun u : ℝ => lerp u A B) (interior H)) :=
    isOpen_interior.preimage (lerp_continuous A B)
  have hmem : sInf T ∈ Set.preimage (fun u : ℝ => lerp u A B) (interior H) := hint
  obtain ⟨δ, hδ, hball⟩ := Metric.isOpen_iff.mp hopen _ hmem
  have ht0pos : 0 < sInf T := by
    rcases eq_or_lt_of_le ht0.1.1 with heq | hlt
    · exfalso
      apply hA
      have hmm : lerp (sInf T) A B ∈ H := ht0.2
      rw [← heq, lerp_zero] at hmm
      exact hmm
    · exact hlt
  have hslt : max (sInf T - δ / 2) (sInf T / 2) < sInf T := max_lt (by linarith) (by linarith)
  have hsT : max (sInf T - δ / 2) (sInf T / 2) ∈ T := by
    refine ⟨⟨le_max_of_le_right (by linarith), le_trans hslt.le ht0.1.2⟩, ?_⟩
    have hdist : dist (max (sInf T - δ / 2) (sInf T / 2)) (sInf T) < δ := by
      rw [Real.dist_eq, abs_sub_lt_iff]
      constructor
      · linarith
      · have hub := le_max_left (sInf T - δ / 2) (sInf T / 2)
        linarith
    exact interior_subset (hball hdist)
  exact absurd (csInf_le hbb hsT) (not_le.mpr hslt)

/-- When the second auxiliary endpoint lies outside the closed region, the second
truncation point (at the supremum parameter) lies on the region's frontier. -/
lemma lerp_sSup_mem_frontier (A B : Coord) (H : Set Coord) (hH : IsClosed H) (hB : B ∉ H)
    (hne : {u : ℝ | u ∈ Icc (0 : ℝ) 1 ∧ lerp u A B ∈ H}.Nonempty) :
    lerp (sSup {u : ℝ | u ∈ Icc (0 : ℝ) 1 ∧ lerp u A B ∈ H}) A B ∈ frontier H := by
  set T := {u : ℝ | u ∈ Icc (0 : ℝ) 1 ∧ lerp u A B ∈ H} with hTdef
  have hclosed : IsClosed T := by
    have heq : T = Icc (0 : ℝ) 1 ∩ Set.preimage (fun u : ℝ => lerp u A B) H := rfl
    rw [heq]
    exact isClosed_Icc.inter (hH.preimage (lerp_continuous A B))
  have hba : BddAbove T := ⟨1, fun x hx => hx.1.2⟩
  have ht1 : sSup T ∈ T := hclosed.csSup_mem hne hba
  show lerp (sSup T) A B ∈ closure H \ interior H
  refine ⟨subset_closure ht1.2, ?_⟩
  intro hint
  have hopen : IsOpen (Set.preimage (fun u : ℝ => lerp u A B) (interior H)) :=
    isOpen_interior.preimage (lerp_continuous A B)
  have hmem : sSup T ∈ Set.preimage (fun u : ℝ => lerp u A B) (interior H) := hint
  obtain ⟨δ, hδ, hball⟩ := Metric.isOpen_iff.mp hopen _ hmem
  have ht1lt : sSup T < 1 := by
    rcases lt_or_eq_of_le ht1.1.2 with hlt | heq
    · exact hlt
    · exfalso
      apply hB
      have hmm : lerp (sSup T) A B ∈ H := ht1.2
      rw [heq, lerp_one] at hmm
      exact hmm
  have hslt : sSup T < min (sSup T + δ / 2) ((sSup T + 1) / 2) :=
    lt_min (by linarith) (by linarith)
  have hsT : min (sSup T + δ / 2) ((sSup T + 1) / 2) ∈ T := by
    refine ⟨⟨le_trans ht1.1.1 hslt.le, le_trans (min_le_right _ _) (by linarith)⟩, ?_⟩
    have hdist : dist (min (sSup T + δ / 2) ((sSup T + 1) / 2)) (sSup T) < δ := by
      rw [Real.dist_eq, abs_sub_lt_iff]
      constructor
      · have hub := min_le_left (sSup T + δ / 2) ((sSup T + 1) / 2)
        linarith
      · linarith
    exact interior_subset (hball hdist)
  exact absurd (le_csSup hba hsT) (not_le.mpr hslt)

/-! ### Claim theorem: C7 -/

/-- C7 amended: when the two endpoints of the auxiliary truncated perpendicular
segment lie outside the convex hull and the segment meets the hull in two distinct
parameters, `calculate_partition_between_circles` returns a nondegenerate `Segment`
whose endpoints lie on the hull's frontier and whose direction is perpendicular to
the segment joining the two (distinct) centers. Without those provisos the claim
fails (see the counterexample). -/
theorem C7_partition_amended (c1 c2 : Circle) (s t : Coord) (cs : List Circle)
    (hcc : c1.center ≠ c2.center)
    (hA : partition_inf_a c1 c2 ∉ partition_hull s t cs)
    (hB : partition_inf_b c1 c2 ∉ partition_hull s t cs)
    (hex : ∃ u v : ℝ, u ∈ partition_params c1 c2 s t cs ∧
      v ∈ partition_params c1 c2 s t cs ∧ u ≠ v) :
    ∃ P Q : Coord,
      calculate_partition_between_circles c1 c2 s t cs = some (Segment.mk P Q) ∧
      P ≠ Q ∧
      P ∈ frontier (partition_hull s t cs) ∧
      Q ∈ frontier (partition_hull s t cs) ∧
      (Q.1 - P.1) * (c2.center.1 - c1.center.1)
        + (Q.2 - P.2) * (c2.center.2 - c1.center.2) = 0 := by
  obtain ⟨u, v, hu, hv, huv⟩ := hex
  have hne : (partition_params c1 c2 s t cs).Nonempty := ⟨u, hu⟩
  have hlt := params_inf_lt_sup c1 c2 s t cs u v hu hv huv
  refine ⟨lerp (sInf (partition_params c1 c2 s t cs))
      (partition_inf_a c1 c2) (partition_inf_b c1 c2),
    lerp (sSup (partition_params c1 c2 s t cs))
      (partition_inf_a c1 c2) (partition_inf_b c1 c2), ?_, ?_, ?_, ?_, ?_⟩
  · unfold calculate_partition_between_circles
    dsimp only
    rw [if_pos hlt]
  · intro he
    exact absurd (lerp_inj _ _ (partition_inf_ne c1 c2) he) (ne_of_lt hlt)
  · exact lerp_sInf_mem_frontier _ _ _ (partition_hull_closed s t cs) hA hne
  · exact lerp_sSup_mem_frontier _ _ _ (partition_hull_closed s t cs) hB hne
  · -- perpendicularity
    have hzne : (⟨c2.center.1 - c1.center.1, c2.center.2 - c1.center.2⟩ : ℂ) ≠ 0 := by
      intro h
      rw [Complex.ext_iff] at h
      simp only [Complex.zero_re, Complex.zero_im] at h
      apply hcc
      exact Prod.ext_iff.mpr ⟨by linarith [h.1], by linarith [h.2]⟩
    have hangle : (Segment.mk c1.center c2.center).angle
        = Complex.arg ⟨c2.center.1 - c1.center.1, c2.center.2 - c1.center.2⟩ := rfl
    have hcos := Complex.cos_arg hzne
    have hsin := Complex.sin_arg
      (⟨c2.center.1 - c1.center.1, c2.center.2 - c1.center.2⟩ : ℂ)
    have habs_ne : Complex.abs
        (⟨c2.center.1 - c1.center.1, c2.center.2 - c1.center.2⟩ : ℂ) ≠ 0 :=
      Complex.abs.ne_zero hzne
    have hBA1 : (partition_inf_b c1 c2).1 - (partition_inf_a c1 c2).1
        = 2 * INF * Real.sin ((Segment.mk c1.center c2.center).angle) := by
      unfold partition_inf_b partition_inf_a shifted
      dsimp only
      rw [half_pi_eq, Real.cos_add_pi_div_two, Real.cos_sub_pi_div_two]
      ring
    have hBA2 : (partition_inf_b c1 c2).2 - (partition_inf_a c1 c2).2
        = -(2 * INF * Real.cos ((Segment.mk c1.center c2.center).angle)) := by
      unfold partition_inf_b partition_inf_a shifted
      dsimp only
      rw [half_pi_eq, Real.sin_add_pi_div_two, Real.sin_sub_pi_div_two]
      ring
    have hdiff1 : (lerp (sSup (partition_params c1 c2 s t cs))
          (partition_inf_a c1 c2) (partition_inf_b c1 c2)).1
        - (lerp (sInf (partition_params c1 c2 s t cs))
          (partition_inf_a c1 c2) (partition_inf_b c1 c2)).1
        = (sSup (partition_params c1 c2 s t cs) - sInf (partition_params c1 c2 s t cs))
          * ((partition_inf_b c1 c2).1 - (partition_inf_a c1 c2).1) := by
      unfold lerp
      dsimp only
      ring
    have hdiff2 : (lerp (sSup (partition_params c1 c2 s t cs))
          (partition_inf_a c1 c2) (partition_inf_b c1 c2)).2
        - (lerp (sInf (partition_params c1 c2 s t cs))
          (partition_inf_a c1 c2) (partition_inf_b c1 c2)).2
        = (sSup (partition_params c1 c2 s t cs) - sInf (partition_params c1 c2 s t cs))
          * ((partition_inf_b c1 c2).2 - (partition_inf_a c1 c2).2) := by
      unfold lerp
      dsimp only
      ring
    rw [hdiff1, hdiff2, hBA1, hBA2, hangle, hsin, hcos]
    have hre : (⟨c2.center.1 - c1.center.1, c2.center.2 - c1.center.2⟩ : ℂ).re
        = c2.center.1 - c1.center.1 := rfl
    have him : (⟨c2.center.1 - c1.center.1, c2.center.2 - c1.center.2⟩ : ℂ).im
        = c2.center.2 - c1.center.2 := rfl
    rw [hre, him]
    field_simp
    ring

/-- C7 counterexample: with centers `(0,0)` and `(2,0)` but source, target and the only
listed circle far away (around height 5000), the construction returns no `Segment` at
all — the truncated auxiliary segment misses the hull — so the claim that it always
returns a perpendicular hull-chord `Segment` fails. -/
theorem C7_partition_counterexample :
    (Circle.mk ((0 : ℝ), (0 : ℝ)) 1).center ≠ (Circle.mk ((2 : ℝ), (0 : ℝ)) 1).center ∧
    calculate_partition_between_circles (Circle.mk ((0 : ℝ), (0 : ℝ)) 1)
      (Circle.mk ((2 : ℝ), (0 : ℝ)) 1) ((0 : ℝ), (5000 : ℝ)) ((2 : ℝ), (5000 : ℝ))
      [Circle.mk ((1 : ℝ), (5000 : ℝ)) 1] = none := by
  constructor
  · intro h
    rw [center_mk, center_mk, Prod.ext_iff] at h
    norm_num at h
  · exact partition_far_eval_none

/-- The near hull (generated around height 0) lies below the line `y = 1`. -/
lemma hull_near_ub :
    partition_hull ((0 : ℝ), (0 : ℝ)) ((2 : ℝ), (0 : ℝ)) [Circle.mk ((1 : ℝ), (0 : ℝ)) 1]
      ⊆ {p : Coord | p.2 ≤ 1} := by
  unfold partition_hull
  apply convexHull_min
  · intro p hp
    rcases hp with hp | hp | ⟨c, hc, hp⟩
    · rw [hp]
      show (0 : ℝ) ≤ 1
      norm_num
    · rw [hp]
      show (0 : ℝ) ≤ 1
      norm_num
    · rw [List.mem_singleton] at hc
      subst hc
      unfold Circle.inner_boundary ring_points at hp
      simp only [center_mk, radius_mk, List.mem_map, List.mem_range] at hp
      obtain ⟨k, _, rfl⟩ := hp
      show (shifted ((1 : ℝ), (0 : ℝ)) 1 _).2 ≤ 1
      unfold shifted
      dsimp only
      nlinarith [Real.sin_le_one (2 * Real.pi * (k : ℝ) / (4 * (BUFFER_RESOLUTION : ℝ)))]
  · exact convex_halfSpace_le ⟨fun a b => rfl, fun c a => rfl⟩ 1

/-- The near hull lies above the line `y = -1`. -/
lemma hull_near_lb :
    partition_hull ((0 : ℝ), (0 : ℝ)) ((2 : ℝ), (0 : ℝ)) [Circle.mk ((1 : ℝ), (0 : ℝ)) 1]
      ⊆ {p : Coord | -1 ≤ p.2} := by
  unfold partition_hull
  apply convexHull_min
  · intro p hp
    rcases hp with hp | hp | ⟨c, hc, hp⟩
    · rw [hp]
      show (-1 : ℝ) ≤ 0
      norm_num
    · rw [hp]
      show (-1 : ℝ) ≤ 0
      norm_num
    · rw [List.mem_singleton] at hc
      subst hc
      unfold Circle.inner_boundary ring_points at hp
      simp only [center_mk, radius_mk, List.mem_map, List.mem_range] at hp
      obtain ⟨k, _, rfl⟩ := hp
      show (-1 : ℝ) ≤ (shifted ((1 : ℝ), (0 : ℝ)) 1 _).2
      unfold shifted
      dsimp only
      nlinarith [Real.neg_one_le_sin (2 * Real.pi * (k : ℝ) / (4 * (BUFFER_RESOLUTION : ℝ)))]
  · exact convex_halfSpace_ge ⟨fun a b => rfl, fun c a => rfl⟩ (-1)

/-- Witness for the amended C7: circles about `(0,0)` and `(2,0)`, source `(0,0)`,
target `(2,0)` and the circle about `(1,0)` in the hull list; the auxiliary segment
crosses the hull, its endpoints `(1, ±1000)` lie outside, and the theorem produces the
perpendicular truncated segment. -/
theorem C7_partition_amended_witness :
    (Circle.mk ((0 : ℝ), (0 : ℝ)) 1).center ≠ (Circle.mk ((2 : ℝ), (0 : ℝ)) 1).center ∧
    partition_inf_a (Circle.mk ((0 : ℝ), (0 : ℝ)) 1) (Circle.mk ((2 : ℝ), (0 : ℝ)) 1)
      ∉ partition_hull ((0 : ℝ), (0 : ℝ)) ((2 : ℝ), (0 : ℝ)) [Circle.mk ((1 : ℝ), (0 : ℝ)) 1] ∧
    partition_inf_b (Circle.mk ((0 : ℝ), (0 : ℝ)) 1) (Circle.mk ((2 : ℝ), (0 : ℝ)) 1)
      ∉ partition_hull ((0 : ℝ), (0 : ℝ)) ((2 : ℝ), (0 : ℝ)) [Circle.mk ((1 : ℝ), (0 : ℝ)) 1] ∧
    (∃ u v : ℝ, u ∈ partition_params (Circle.mk ((0 : ℝ), (0 : ℝ)) 1)
        (Circle.mk ((2 : ℝ), (0 : ℝ)) 1) ((0 : ℝ), (0 : ℝ)) ((2 : ℝ), (0 : ℝ))
        [Circle.mk ((1 : ℝ), (0 : ℝ)) 1] ∧
      v ∈ partition_params (Circle.mk ((0 : ℝ), (0 : ℝ)) 1)
        (Circle.mk ((2 : ℝ), (0 : ℝ)) 1) ((0 : ℝ), (0 : ℝ)) ((2 : ℝ), (0 : ℝ))
        [Circle.mk ((1 : ℝ), (0 : ℝ)) 1] ∧ u ≠ v) ∧
    (∃ P Q : Coord,
      calculate_partition_between_circles (Circle.mk ((0 : ℝ), (0 : ℝ)) 1)
        (Circle.mk ((2 : ℝ), (0 : ℝ)) 1) ((0 : ℝ), (0 : ℝ)) ((2 : ℝ), (0 : ℝ))
        [Circle.mk ((1 : ℝ), (0 : ℝ)) 1] = some (Segment.mk P Q) ∧
      P ≠ Q ∧
      P ∈ frontier (partition_hull ((0 : ℝ), (0 : ℝ)) ((2 : ℝ), (0 : ℝ))
        [Circle.mk ((1 : ℝ), (0 : ℝ)) 1]) ∧
      Q ∈ frontier (partition_hull ((0 : ℝ), (0 : ℝ)) ((2 : ℝ), (0 : ℝ))
        [Circle.mk ((1 : ℝ), (0 : ℝ)) 1]) ∧
      (Q.1 - P.1) * ((Circle.mk ((2 : ℝ), (0 : ℝ)) 1).center.1
          - (Circle.mk ((0 : ℝ), (0 : ℝ)) 1).center.1)
        + (Q.2 - P.2) * ((Circle.mk ((2 : ℝ), (0 : ℝ)) 1).center.2
          - (Circle.mk ((0 : ℝ), (0 : ℝ)) 1).center.2) = 0) := by
  have hcc : (Circle.mk ((0 : ℝ), (0 : ℝ)) 1).center
      ≠ (Circle.mk ((2 : ℝ), (0 : ℝ)) 1).center := by
    intro h
    rw [center_mk, center_mk, Prod.ext_iff] at h
    norm_num at h
  have hA : partition_inf_a (Circle.mk ((0 : ℝ), (0 : ℝ)) 1) (Circle.mk ((2 : ℝ), (0 : ℝ)) 1)
      ∉ partition_hull ((0 : ℝ), (0 : ℝ)) ((2 : ℝ), (0 : ℝ))
        [Circle.mk ((1 : ℝ), (0 : ℝ)) 1] := by
    rw [partition_ex_inf_a]
    intro hmem
    have := hull_near_ub hmem
    simp only [mem_setOf_eq] at this
    norm_num at this
  have hB : partition_inf_b (Circle.mk ((0 : ℝ), (0 : ℝ)) 1) (Circle.mk ((2 : ℝ), (0 : ℝ)) 1)
      ∉ partition_hull ((0 : ℝ), (0 : ℝ)) ((2 : ℝ), (0 : ℝ))
        [Circle.mk ((1 : ℝ), (0 : ℝ)) 1] := by
    rw [partition_ex_inf_b]
    intro hmem
    have := hull_near_lb hmem
    simp only [mem_setOf_eq] at this
    norm_num at this
  have hm1 : ((1 : ℝ), (1 : ℝ)) ∈ partition_hull ((0 : ℝ), (0 : ℝ)) ((2 : ℝ), (0 : ℝ))
      [Circle.mk ((1 : ℝ), (0 : ℝ)) 1] := by
    refine subset_convexHull ℝ _ (Or.inr (Or.inr ⟨Circle.mk ((1 : ℝ), (0 : ℝ)) 1,
      List.mem_singleton_self _, ?_⟩))
    have hm := inner_boundary_mem_top 1 0 1
    norm_num at hm
    exact hm
  have hm2 : ((1 : ℝ), (-1 : ℝ)) ∈ partition_hull ((0 : ℝ), (0 : ℝ)) ((2 : ℝ), (0 : ℝ))
      [Circle.mk ((1 : ℝ), (0 : ℝ)) 1] := by
    refine subset_convexHull ℝ _ (Or.inr (Or.inr ⟨Circle.mk ((1 : ℝ), (0 : ℝ)) 1,
      List.mem_singleton_self _, ?_⟩))
    have hm := inner_boundary_mem_bottom 1 0 1
    norm_num at hm
    exact hm
  have hex : ∃ u v : ℝ, u ∈ partition_params (Circle.mk ((0 : ℝ), (0 : ℝ)) 1)
      (Circle.mk ((2 : ℝ), (0 : ℝ)) 1) ((0 : ℝ), (0 : ℝ)) ((2 : ℝ), (0 : ℝ))
      [Circle.mk ((1 : ℝ), (0 : ℝ)) 1] ∧
      v ∈ partition_params (Circle.mk ((0 : ℝ), (0 : ℝ)) 1)
        (Circle.mk ((2 : ℝ), (0 : ℝ)) 1) ((0 : ℝ), (0 : ℝ)) ((2 : ℝ), (0 : ℝ))
        [Circle.mk ((1 : ℝ), (0 : ℝ)) 1] ∧ u ≠ v := by
    refine ⟨999 / 2000, 1001 / 2000, ⟨?_, ?_⟩, ⟨?_, ?_⟩, by norm_num⟩
    · exact mem_Icc.mpr (by norm_num)
    · rw [partition_ex_inf_a, partition_ex_inf_b]
      have hl : lerp (999 / 2000) ((1 : ℝ), (1000 : ℝ)) ((1 : ℝ), (-1000 : ℝ))
          = ((1 : ℝ), (1 : ℝ)) := by
        unfold lerp
        norm_num
      rw [hl]
      exact hm1
    · exact mem_Icc.mpr (by norm_num)
    · rw [partition_ex_inf_a, partition_ex_inf_b]
      have hl : lerp (1001 / 2000) ((1 : ℝ), (1000 : ℝ)) ((1 : ℝ), (-1000 : ℝ))
          = ((1 : ℝ), (-1 : ℝ)) := by
        unfold lerp
        norm_num
      rw [hl]
      exact hm2
  exact ⟨hcc, hA, hB, hex,
    C7_partition_amended (Circle.mk ((0 : ℝ), (0 : ℝ)) 1) (Circle.mk ((2 : ℝ), (0 : ℝ)) 1)
      ((0 : ℝ), (0 : ℝ)) ((2 : ℝ), (0 : ℝ)) [Circle.mk ((1 : ℝ), (0 : ℝ)) 1]
      hcc hA hB hex⟩

end Uav
